import Mathlib

/-!
# ndfslave `sw/fuse/lofile.c`: translation-and-patch engine

A shallow embedding of `lofile.c` (the FUSE front end that exposes a dual-plane
flash dump as one read-only file) together with theorems about it.

Conventions of the embedding:

* `off_t` / `long` / `int` values are `Int`; `size_t` values are `Nat`.  Signed
  division and remainder are C's truncating ones (`Int.tdiv`, `Int.tmod`).
  Where the C source converts to a narrower or unsigned type and the value can
  leave the range, the conversion is written out (`wrapU64`, `wrapI32`).
* The global variables of the program are collected in `Globals`.
* `pread64` is a parameter (`Dev`): the model makes no assumption about what the
  dump files contain or whether a read succeeds.
* The caller's buffer is a partial map from positions (relative to the pointer
  handed to `lofile_read`) to bytes.
-/

namespace Lofile

/-! ## Machine integers -/

/-- Conversion of a mathematical integer to `size_t` (unsigned 64 bit). -/
def wrapU64 (x : Int) : Nat := (x % 18446744073709551616).toNat

/-- Conversion of a mathematical integer to `int` (signed 32 bit, two's complement). -/
def wrapI32 (x : Int) : Int := (x + 2147483648) % 4294967296 - 2147483648

/-! ## Data model (lofile.c lines 24-51) -/

/-- The `struct fwdtab` record: `unsigned short phys; short confidence`.  The
values of `phys` are below `65536`, so `phys * (BLOCKSZ / 2) + pg` of line 148
stays inside `int`. -/
structure fwdtab where
  phys : Nat
  confidence : Int
deriving DecidableEq, Repr

/-- The `struct patch` record: four `int` fields. -/
structure patch where
  sector : Int
  pg : Int
  confidence : Int
  fd : Int
deriving DecidableEq, Repr

/-- The macro `NPATCHES`, line 29. -/
def NPATCHES : Nat := 256

/-- The macro `PAGESZ`, line 42 (a `long`). -/
def PAGESZ : Int := 8832

/-- The macro `SECBLOCK`, line 43 (a `long`). -/
def SECBLOCK : Int := 1024

/-- The macro `ECCSZ`, line 44 (a `long`). -/
def ECCSZ : Int := 70

/-- The macro `SECCNT`, line 45. -/
def SECCNT : Int := 8

/-- The macro `BLOCKSZ`, line 46. -/
def BLOCKSZ : Int := 0x200

/-- The macro `PATCHSECSZ`, line 47; no line of the program uses it. -/
def PATCHSECSZ : Int := 512

/-- Modelled from the spec: the "not-found condition" `ENOENT`.  The header
`errno.h` is not part of the repository; the number is the one Linux gives it. -/
def ENOENT : Int := 2

/-- Modelled from the spec: the "access-denied condition" `EACCES`, with the
number Linux gives it in `errno.h`. -/
def EACCES : Int := 13

/-- Modelled from the spec: the read-only access mode `O_RDONLY`, with the number
Linux gives it in `fcntl.h`. -/
def O_RDONLY : Int := 0

/-- The string `lofile_path`. -/
def lofile_path : String := "/lofile"

/-- The static variables `_tab`, `_tabsz`, `_fd0`, `_fd1` and `patches`. -/
structure Globals where
  _tab : List fwdtab
  _tabsz : Int
  _fd0 : Int
  _fd1 : Int
  patches : List patch

/-- A zero-initialised `struct patch`. -/
def zeroPatch : patch := ⟨0, 0, 0, 0⟩

/-- The zero-initialised static array `patches[NPATCHES * 2]`. -/
def emptyPatches : List patch := List.replicate (NPATCHES * 2) zeroPatch

/-- The file size reported by `lofile_getattr` and tested by the translator:
`_tabsz * SECBLOCK * SECCNT * BLOCKSZ` (computed in `long`). -/
def totalSize (g : Globals) : Int := g._tabsz * SECBLOCK * SECCNT * BLOCKSZ

/-! ## Address translator (`lofile_read_a_little`, lines 98-151) -/

/-- What one call of `lofile_read_a_little` does before it returns. -/
inductive Chunk where
  /-- The call `return -ENOENT`. -/
  | enoent
  /-- The call `return 0` of line 110. -/
  | eof
  /-- The calls `memset(buf, 0, size); return size`. -/
  | zero (size : Nat)
  /-- The call `return pread64(fd, buf, size, off)`. -/
  | pread (fd : Int) (size : Nat) (off : Int)
deriving DecidableEq, Repr

/-- The test of line 128 on one slot: `patches[i].sector &&
patches[i].sector / 0x10 == offset / (512 * 0x10)`. -/
def patchMatches (offset : Int) (p : patch) : Bool :=
  decide (p.sector ≠ 0) && decide (Int.tdiv p.sector 0x10 = Int.tdiv offset (512 * 0x10))

/-- The size after lines 112-113: the sum is formed in `size_t`. -/
def clipSize (size : Nat) (offset : Int) : Nat :=
  if wrapU64 ((size : Int) + Int.tmod offset SECBLOCK) > 1024 then
    wrapU64 (SECBLOCK - Int.tmod offset SECBLOCK)
  else size

/-- The block index of line 115 (a `long` quotient stored in an `int`). -/
def blockOf (offset : Int) : Int := wrapI32 (Int.tdiv offset (SECBLOCK * SECCNT * BLOCKSZ))

/-- The `sec` of line 124. -/
def secOf (offset : Int) : Int := Int.tdiv (Int.tmod offset (SECBLOCK * SECCNT)) SECBLOCK

/-- The `secofs` of line 125. -/
def secofsOf (offset : Int) : Int := Int.tmod offset SECBLOCK

/-- The first value of `pg`, line 137. -/
def pageOf (offset : Int) : Int :=
  Int.tdiv (Int.tmod offset (SECBLOCK * SECCNT * BLOCKSZ)) (SECBLOCK * SECCNT)

/-- Line 139: `(pg >> 1) + ((pg & 1) << 8)`. -/
def splitOf (pg : Int) : Int := (pg >>> 1) + ((Int.land pg 1) <<< 8)

/-- The `cs` of line 141. -/
def csOf (offset : Int) : Int := Int.land (splitOf (pageOf offset)) 1

/-- The final `pg` of line 142. -/
def finalPageOf (offset : Int) : Int := (splitOf (pageOf offset)) >>> 1

/-- The translator: everything `lofile_read_a_little` decides, up to the call that
produces the bytes.  `none` is an access outside `_tab` (undefined behaviour). -/
def lofile_read_a_little (g : Globals) (path : String) (size : Nat) (offset : Int) :
    Option Chunk :=
  if path ≠ lofile_path then some Chunk.enoent
  else if offset ≥ totalSize g then some Chunk.eof
  else
    let size := clipSize size offset
    let block := blockOf offset
    if block < 0 then none
    else
      match g._tab[block.toNat]? with
      | none => none
      | some e =>
        if e.confidence < 0 then some (Chunk.zero size)
        else
          let phys : Int := e.phys
          let sec := secOf offset
          let secofs := secofsOf offset
          match (g.patches.take NPATCHES).find? (patchMatches offset) with
          | some p =>
            some (Chunk.pread p.fd size (p.pg * PAGESZ + sec * (SECBLOCK + ECCSZ) + secofs))
          | none =>
            let pg := splitOf (pageOf offset)
            let cs := Int.land pg 1
            let pg := pg >>> 1
            some (Chunk.pread (if cs ≠ 0 then g._fd1 else g._fd0) size
              ((phys * (BLOCKSZ / 2) + pg) * PAGESZ + sec * (SECBLOCK + ECCSZ) + secofs))

/-- The number of bytes a chunk asks for. -/
def Chunk.len : Chunk → Nat
  | Chunk.zero size => size
  | Chunk.pread _ size _ => size
  | _ => 0

/-! ## Executing a chunk -/

/-- Result of one `pread64` call. -/
inductive PreadResult where
  /-- The call failed and returned `-1`; nothing was stored. -/
  | error
  /-- The call stored these bytes and returned their number. -/
  | data (bytes : List Nat)

/-- The physical read primitive `pread64 fd count offset`. -/
structure Dev where
  pread64 : Int → Nat → Int → PreadResult

/-- The caller's buffer: position (relative to the initial `buf`) to byte. -/
abbrev Mem := Int → Option Nat

/-- Memory after storing `bytes` from position `pos` on. -/
def store (m : Mem) (pos : Int) (bytes : List Nat) : Mem :=
  fun i => if pos ≤ i ∧ i < pos + bytes.length then bytes[(i - pos).toNat]? else m i

/-- One physical read that was issued: file, count and offset. -/
structure PhysRead where
  fd : Int
  count : Nat
  off : Int
deriving DecidableEq, Repr

/-- The loop variables of `lofile_read` together with the buffer contents and
the physical reads issued so far. -/
structure ReadState where
  size : Nat
  buf : Int
  retsz : Nat
  offset : Int
  mem : Mem
  trace : List PhysRead

/-- Runs a chunk at cursor `buf`: the value returned by `lofile_read_a_little`
(an `int`), the buffer and the trace afterwards. -/
def runChunk (dev : Dev) (c : Chunk) (buf : Int) (mem : Mem) (trace : List PhysRead) :
    Int × Mem × List PhysRead :=
  match c with
  | Chunk.enoent => (-ENOENT, mem, trace)
  | Chunk.eof => (0, mem, trace)
  | Chunk.zero size => (wrapI32 size, store mem buf (List.replicate size 0), trace)
  | Chunk.pread fd size off =>
    match dev.pread64 fd size off with
    | PreadResult.error => (-1, mem, trace ++ [⟨fd, size, off⟩])
    | PreadResult.data bytes =>
      let got := bytes.take size
      (wrapI32 got.length, store mem buf got, trace ++ [⟨fd, size, off⟩])

/-! ## Virtual file server (`lofile_read`, lines 153-171) -/

/-- Why a run of the model produced no result. -/
inductive Fault where
  /-- An access outside `_tab`. -/
  | undefinedBehaviour
  /-- The iteration budget of the model was used up. -/
  | outOfFuel
deriving DecidableEq, Repr

/-- The `while (size)` loop of `lofile_read`; `fuel` bounds the number of iterations. -/
def lofile_read_loop (g : Globals) (dev : Dev) (path : String) :
    Nat → ReadState → Except Fault ReadState
  | 0, st => if st.size = 0 then Except.ok st else Except.error Fault.outOfFuel
  | fuel + 1, st =>
    if st.size = 0 then Except.ok st
    else
      match lofile_read_a_little g path st.size st.offset with
      | none => Except.error Fault.undefinedBehaviour
      | some c =>
        let r := runChunk dev c st.buf st.mem st.trace
        let rv := r.1
        if rv = 0 then Except.ok { st with mem := r.2.1, trace := r.2.2 }
        else
          lofile_read_loop g dev path fuel
            { size := wrapU64 ((st.size : Int) - rv)
              buf := st.buf + rv
              retsz := wrapU64 ((st.retsz : Int) + rv)
              offset := st.offset + rv
              mem := r.2.1
              trace := r.2.2 }

/-- The buffer before a request: nothing written yet. -/
def emptyMem : Mem := fun _ => none

/-- Outcome of a completed `lofile_read`. -/
structure ReadResult where
  ret : Int
  mem : Mem
  trace : List PhysRead

/-- The function `lofile_read`: the returned `int` is `retsz` converted. -/
def lofile_read (g : Globals) (dev : Dev) (path : String) (size : Nat) (offset : Int)
    (fuel : Nat) : Except Fault ReadResult :=
  match lofile_read_loop g dev path fuel
      { size := size, buf := 0, retsz := 0, offset := offset, mem := emptyMem, trace := [] } with
  | Except.error e => Except.error e
  | Except.ok st => Except.ok { ret := wrapI32 st.retsz, mem := st.mem, trace := st.trace }

/-- The returned count and the physical reads of a finished request. -/
def outcome (r : Except Fault ReadResult) : Option (Int × List PhysRead) :=
  match r with
  | Except.ok x => some (x.ret, x.trace)
  | Except.error _ => none

/-- The loop variables `size`, `buf`, `retsz` and `offset` at the end of the loop. -/
def finalVars (r : Except Fault ReadState) : Option (Nat × Int × Nat × Int) :=
  match r with
  | Except.ok st => some (st.size, st.buf, st.retsz, st.offset)
  | Except.error _ => none

/-- The function `lofile_open` (lines 87-96); `flags` is `fi->flags`. -/
def lofile_open (path : String) (flags : Int) : Int :=
  if path ≠ lofile_path then -ENOENT
  else if Int.land flags 3 ≠ O_RDONLY then -EACCES
  else 0

/-! ## Patch store (`main`, lines 204-239) -/

/-- The inner loop of lines 220-222: the first `j` with `patches[j].sector == 0 ||
patches[j].sector == s`, or `NPATCHES * 2` when the loop runs to its end. -/
def findSlot (patches : List patch) (s : Int) : Nat :=
  ((patches.take (NPATCHES * 2)).findIdx (fun p => decide (p.sector = 0) || decide (p.sector = s)))

/-- The slot written by lines 229-232 for record `r` of a batch read through `pfilfd`. -/
def installed (pfilfd : Int) (r : patch) : patch :=
  { sector := r.sector, pg := r.pg, confidence := r.confidence, fd := pfilfd }

/-- The loop of lines 214-234 over the records `thispatches[i]` of one batch:
it ends at the first record with `sector == 0` (line 217) and when the scan
finds no slot (lines 223-226). -/
def install_loop (pfilfd : Int) : List patch → List patch → List patch
  | patches, [] => patches
  | patches, r :: rest =>
    if r.sector = 0 then patches
    else
      let j := findSlot patches r.sector
      if j = NPATCHES * 2 then patches
      else if r.confidence > (patches.getD j zeroPatch).confidence then
        install_loop pfilfd (patches.set j (installed pfilfd r)) rest
      else install_loop pfilfd patches rest

/-- One round of the `while` loop of `main`: the patch list file holds the
records `thispatches`; `none` is the `abort()` of the `XFAIL` on a short read. -/
def load_batch (patches : List patch) (pfilfd : Int) (thispatches : List patch) :
    Option (List patch) :=
  if thispatches.length < NPATCHES then none
  else some (install_loop pfilfd patches (thispatches.take NPATCHES))

/-- All rounds of the `while` loop of `main`, each batch with its `pfilfd`. -/
def load_batches : List patch → List (Int × List patch) → Option (List patch)
  | patches, [] => some patches
  | patches, (fd, recs) :: rest =>
    match load_batch patches fd recs with
    | none => none
    | some patches' => load_batches patches' rest

/-! ## Well-formedness of inputs -/

/-- The values an `int` can hold. -/
def IsInt32 (x : Int) : Prop := -2147483648 ≤ x ∧ x < 2147483648

/-! ## Vocabulary for the patch table -/

/-- Slot `j` of a patch table. -/
def slotAt (t : List patch) (j : Nat) : patch := t.getD j zeroPatch

/-- The records of a batch that the loop of line 214 looks at before the
`sector == 0` test of line 217 ends it. -/
def inUse (thispatches : List patch) : List patch :=
  (thispatches.take NPATCHES).takeWhile (fun r => decide (r.sector ≠ 0))

/-- The test "slot holds sector `s`". -/
def holds (s : Int) (p : patch) : Bool := decide (p.sector = s)

/-- The table whose first slots are `occ` and whose other slots are zero. -/
def tableOf (occ : List patch) : List patch :=
  occ ++ List.replicate (NPATCHES * 2 - occ.length) zeroPatch

/-- The occupied part of a table: at most 512 slots, each with a non-zero sector
and a positive confidence, no sector twice. -/
structure Occ (occ : List patch) : Prop where
  len : occ.length ≤ NPATCHES * 2
  inuse : ∀ p ∈ occ, p.sector ≠ 0
  conf : ∀ p ∈ occ, 0 < p.confidence
  nodup : (occ.map patch.sector).Nodup

/-- What lines 227-233 do to the occupied part of a table that is not full, for
one in-use record `r`: the slot found is the one holding `r.sector`, else the
first free one. -/
def installOcc (pfilfd : Int) (occ : List patch) (r : patch) : List patch :=
  let j := occ.findIdx (holds r.sector)
  if r.confidence > (occ.getD j zeroPatch).confidence then
    (if j < occ.length then occ.set j (installed pfilfd r) else occ ++ [installed pfilfd r])
  else occ

/-- The slot selection in the words of the specification (section 4.2): scan the
combined 512-slot table for (a) a slot already holding the same sector address,
else (b) the first free slot; `NPATCHES * 2` stands for "none found". -/
def findSlotSpec (patches : List patch) (s : Int) : Nat :=
  let t := patches.take (NPATCHES * 2)
  if t.findIdx (holds s) < t.length then t.findIdx (holds s)
  else if t.findIdx (fun p => decide (p.sector = 0)) < t.length then
    t.findIdx (fun p => decide (p.sector = 0))
  else NPATCHES * 2

/-! ## Sample inputs -/

/-- A device on which every read is served in full. -/
def fullDev : Dev := ⟨fun fd n _ => PreadResult.data (List.replicate n (fd.toNat % 256))⟩

/-- Sample globals: block 0 mapped to physical block 2, block 1 unmapped, no patches. -/
def sampleGlobals : Globals :=
  { _tab := [⟨2, 5⟩, ⟨7, -1⟩], _tabsz := 2, _fd0 := 10, _fd1 := 11, patches := emptyPatches }

/-- Two batches with one in-use record each, for the same sector. -/
def sampleBatch1 : List patch := ⟨17, 3, 5, 0⟩ :: List.replicate 255 zeroPatch

/-- The second sample batch: sector 17 again, with a higher confidence. -/
def sampleBatch2 : List patch := ⟨17, 4, 9, 0⟩ :: List.replicate 255 zeroPatch

/-- A batch of 256 in-use records: sectors 16, 32, ..., 4096, confidence 1. -/
def fullBatchA : List patch :=
  (List.range 256).map (fun (i : Nat) => (⟨16 * ((i : Int) + 1), (i : Int), 1, 0⟩ : patch))

/-- A batch of 256 further in-use records: sectors 4112, ..., 8192, confidence 1. -/
def fullBatchB : List patch :=
  (List.range 256).map (fun (i : Nat) => (⟨16 * ((i : Int) + 257), (i : Int), 1, 0⟩ : patch))

/-- The table after `fullBatchA` (read through fd 3) and `fullBatchB` (fd 4). -/
def fullTable : List patch :=
  (List.range 256).map (fun (i : Nat) => (⟨16 * ((i : Int) + 1), (i : Int), 1, 3⟩ : patch))
    ++ (List.range 256).map (fun (i : Nat) => (⟨16 * ((i : Int) + 257), (i : Int), 1, 4⟩ : patch))

/-- A third batch: a sector that is not in `fullTable`, then sector 16 (held by
slot 0 of `fullTable`) with a higher confidence. -/
def lateBatch : List patch := ⟨100000, 7, 9, 0⟩ :: ⟨16, 7, 9, 0⟩ :: List.replicate 254 zeroPatch

/-- Globals with one mapped block (physical block 2) and the full patch table. -/
def fullGlobals : Globals :=
  { _tab := [⟨2, 5⟩], _tabsz := 1, _fd0 := 10, _fd1 := 11, patches := fullTable }

/-- A batch with in-use records for sectors 16 and 17, which lie in the same
group of 16 sectors. -/
def shadowBatch1 : List patch := ⟨16, 1, 5, 0⟩ :: ⟨17, 2, 5, 0⟩ :: List.replicate 254 zeroPatch

/-- A later batch with a record for sector 17 of higher confidence. -/
def shadowBatch2 : List patch := ⟨17, 9, 9, 0⟩ :: List.replicate 255 zeroPatch

/-- The table after `shadowBatch1` (read through fd 3) and `shadowBatch2` (fd 4). -/
def shadowTable : List patch := ⟨16, 1, 5, 3⟩ :: ⟨17, 9, 9, 4⟩ :: List.replicate 510 zeroPatch

/-- Globals with one mapped block and the table `shadowTable`. -/
def shadowGlobals : Globals :=
  { _tab := [⟨2, 5⟩], _tabsz := 1, _fd0 := 10, _fd1 := 11, patches := shadowTable }

/-- Globals with one mapped block and the table left by the two sample batches. -/
def arbitratedGlobals : Globals :=
  { _tab := [⟨2, 5⟩], _tabsz := 1, _fd0 := 10, _fd1 := 11
    patches := ⟨17, 4, 9, 4⟩ :: List.replicate 511 zeroPatch }

/-- A batch with two in-use records for sector 17, of confidences 1 and 10. -/
def dupBatch1 : List patch := ⟨17, 1, 1, 0⟩ :: ⟨17, 2, 10, 0⟩ :: List.replicate 254 zeroPatch

/-- A later batch with one record for sector 17, of confidence 5. -/
def dupBatch2 : List patch := ⟨17, 3, 5, 0⟩ :: List.replicate 255 zeroPatch

/-- The table after `dupBatch1` (read through fd 3) and `dupBatch2` (fd 4). -/
def dupTable : List patch := ⟨17, 2, 10, 3⟩ :: List.replicate 511 zeroPatch

/-- A device that serves one byte per read. -/
def oneByteDev : Dev := ⟨fun _ n _ => PreadResult.data (List.replicate (min n 1) 7)⟩

/-- A device on which the read at physical offset 4523078 fails and every other
read returns no byte. -/
def failOnceDev : Dev :=
  ⟨fun _ _ off => if off = 4523078 then PreadResult.error else PreadResult.data []⟩

/-- A device that returns at most 1024 bytes per read. -/
def cappedDev : Dev := ⟨fun _ n _ => PreadResult.data (List.replicate (min n 1024) 7)⟩

/-- A device on which the read at physical offset 4521984 fails and every other
read is served in full. -/
def failFirstDev : Dev :=
  ⟨fun _ n off => if off = 4521984 then PreadResult.error
    else PreadResult.data (List.replicate n 7)⟩

/-! # Theorems -/

/-! ## Arithmetic of the conversions -/

theorem wrapU64_of_range (x : Int) (h0 : 0 ≤ x) (h1 : x < 18446744073709551616) :
    (wrapU64 x : Int) = x := by
  unfold wrapU64
  omega

theorem wrapI32_of_range (x : Int) (h0 : -2147483648 ≤ x) (h1 : x < 2147483648) :
    wrapI32 x = x := by
  unfold wrapI32
  omega

theorem tdiv_of_nonneg (a b : Int) (ha : 0 ≤ a) (hb : 0 ≤ b) : Int.tdiv a b = a / b :=
  Int.tdiv_eq_ediv ha hb

theorem tmod_of_nonneg (a b : Int) (ha : 0 ≤ a) (hb : 0 ≤ b) : Int.tmod a b = a % b :=
  Int.tmod_eq_emod ha hb

theorem clipSize_of_nonneg (size : Nat) (offset : Int) (ho : 0 ≤ offset)
    (hs : (size : Int) < 9223372036854775808) :
    (clipSize size offset : Int) = min (size : Int) (1024 - offset % 1024) := by
  unfold clipSize
  simp only [SECBLOCK]
  rw [tmod_of_nonneg offset 1024 ho (by norm_num)]
  have h1 : 0 ≤ offset % 1024 := Int.emod_nonneg _ (by norm_num)
  have h2 : offset % 1024 < 1024 := Int.emod_lt_of_pos _ (by norm_num)
  have e1 : (wrapU64 ((size : Int) + offset % 1024) : Int) = size + offset % 1024 :=
    wrapU64_of_range _ (by omega) (by omega)
  have e2 : (wrapU64 (1024 - offset % 1024) : Int) = 1024 - offset % 1024 :=
    wrapU64_of_range _ (by omega) (by omega)
  split
  · rename_i h
    have : (1024 : Int) < (wrapU64 ((size : Int) + offset % 1024) : Int) := by exact_mod_cast h
    rw [e2]; omega
  · rename_i h
    have : ¬ (1024 : Int) < (wrapU64 ((size : Int) + offset % 1024) : Int) := by exact_mod_cast h
    omega

theorem blockOf_of_nonneg (offset : Int) (ho : 0 ≤ offset) (h : offset < 9007199254740992) :
    blockOf offset = offset / 4194304 := by
  unfold blockOf
  simp only [SECBLOCK, SECCNT, BLOCKSZ]
  rw [tdiv_of_nonneg offset _ ho (by norm_num)]
  apply wrapI32_of_range <;> omega

/-! ## The translator, case by case -/

theorem totalSize_eq (g : Globals) : totalSize g = g._tabsz * 4194304 := by
  unfold totalSize
  simp only [SECBLOCK, SECCNT, BLOCKSZ]
  omega

/-- Inside an unmapped block the translator answers with a zero-fill. -/
theorem translate_unmapped (g : Globals) (b : Nat) (e : fwdtab) (size : Nat) (offset : Int)
    (hsz : IsInt32 g._tabsz) (hb : (b : Int) < g._tabsz) (he : g._tab[b]? = some e)
    (hc : e.confidence < 0) (hlo : (b : Int) * 4194304 ≤ offset)
    (hhi : offset < ((b : Int) + 1) * 4194304) :
    lofile_read_a_little g lofile_path size offset = some (Chunk.zero (clipSize size offset)) := by
  have ho : 0 ≤ offset := by omega
  have hblock : blockOf offset = (b : Int) := by
    rw [blockOf_of_nonneg offset ho (by unfold IsInt32 at hsz; omega)]
    omega
  unfold lofile_read_a_little
  rw [totalSize_eq]
  simp only [ne_eq, not_true_eq_false, if_false, hblock]
  rw [if_neg (by omega), if_neg (by omega)]
  simp [he, hc]

/-- The translator in a mapped block when a scanned slot matches. -/
theorem translate_patched (g : Globals) (b : Nat) (e : fwdtab) (p : patch) (size : Nat)
    (offset : Int) (hsz : IsInt32 g._tabsz) (hb : (b : Int) < g._tabsz)
    (he : g._tab[b]? = some e) (hc : 0 ≤ e.confidence) (hlo : (b : Int) * 4194304 ≤ offset)
    (hhi : offset < ((b : Int) + 1) * 4194304)
    (hp : (g.patches.take NPATCHES).find? (patchMatches offset) = some p) :
    lofile_read_a_little g lofile_path size offset =
      some (Chunk.pread p.fd (clipSize size offset)
        (p.pg * PAGESZ + secOf offset * (SECBLOCK + ECCSZ) + secofsOf offset)) := by
  have ho : 0 ≤ offset := by omega
  have hblock : blockOf offset = (b : Int) := by
    rw [blockOf_of_nonneg offset ho (by unfold IsInt32 at hsz; omega)]
    omega
  unfold lofile_read_a_little
  rw [totalSize_eq]
  simp only [ne_eq, not_true_eq_false, if_false, hblock]
  rw [if_neg (by omega), if_neg (by omega)]
  simp only [Int.toNat_ofNat, he, hp]
  rw [if_neg (by omega)]

/-- The translator in a mapped block when no scanned slot matches. -/
theorem translate_unpatched (g : Globals) (b : Nat) (e : fwdtab) (size : Nat)
    (offset : Int) (hsz : IsInt32 g._tabsz) (hb : (b : Int) < g._tabsz)
    (he : g._tab[b]? = some e) (hc : 0 ≤ e.confidence) (hlo : (b : Int) * 4194304 ≤ offset)
    (hhi : offset < ((b : Int) + 1) * 4194304)
    (hp : (g.patches.take NPATCHES).find? (patchMatches offset) = none) :
    lofile_read_a_little g lofile_path size offset =
      some (Chunk.pread (if csOf offset ≠ 0 then g._fd1 else g._fd0)
        (clipSize size offset)
        (((e.phys : Int) * (BLOCKSZ / (2 : Int)) + finalPageOf offset) * PAGESZ
          + secOf offset * (SECBLOCK + ECCSZ) + secofsOf offset)) := by
  have ho : 0 ≤ offset := by omega
  have hblock : blockOf offset = (b : Int) := by
    rw [blockOf_of_nonneg offset ho (by unfold IsInt32 at hsz; omega)]
    omega
  unfold lofile_read_a_little
  rw [totalSize_eq]
  simp only [ne_eq, not_true_eq_false, if_false, hblock]
  rw [if_neg (by omega), if_neg (by omega)]
  simp only [Int.toNat_ofNat, he, hp]
  rw [if_neg (by omega)]
  rfl

/-- In range, the translator answers with a zero-fill or one read of the clipped size. -/
theorem translate_in_range (g : Globals) (size : Nat) (offset : Int)
    (hsz : IsInt32 g._tabsz) (htab : (g._tab.length : Int) = g._tabsz)
    (ho : 0 ≤ offset) (hlt : offset < totalSize g) :
    lofile_read_a_little g lofile_path size offset = some (Chunk.zero (clipSize size offset)) ∨
    ∃ fd off, lofile_read_a_little g lofile_path size offset
      = some (Chunk.pread fd (clipSize size offset) off) := by
  rw [totalSize_eq] at hlt
  obtain ⟨b, hbq⟩ : ∃ b : Nat, (b : Int) = offset / 4194304 :=
    ⟨(offset / 4194304).toNat, by omega⟩
  have hb : (b : Int) < g._tabsz := by omega
  have hlen : b < g._tab.length := by omega
  have he : g._tab[b]? = some (g._tab[b]) := List.getElem?_eq_getElem hlen
  by_cases hc : (g._tab[b]).confidence < 0
  · left
    exact translate_unmapped g b _ size offset hsz hb he hc (by omega) (by omega)
  · right
    cases hp : (g.patches.take NPATCHES).find? (patchMatches offset) with
    | some p =>
      exact ⟨_, _, translate_patched g b _ p size offset hsz hb he (by omega) (by omega)
        (by omega) hp⟩
    | none =>
      exact ⟨_, _, translate_unpatched g b _ size offset hsz hb he (by omega) (by omega)
        (by omega) hp⟩

/-! ## One iteration of the request loop -/

theorem wrapU64_natSub (a c : Nat) (hc : c ≤ a) (ha : a < 18446744073709551616) :
    wrapU64 ((a : Int) - (c : Int)) = a - c := by
  unfold wrapU64
  omega

theorem wrapU64_natAdd (a c : Nat) (ha : a + c < 18446744073709551616) :
    wrapU64 ((a : Int) + (c : Int)) = a + c := by
  unfold wrapU64
  omega

/-- The clipped size of a request of at least one byte at a non-negative offset. -/
theorem clipSize_bounds (size : Nat) (offset : Int) (ho : 0 ≤ offset) (hpos : 0 < size)
    (hs : (size : Int) < 9223372036854775808) :
    1 ≤ clipSize size offset ∧ clipSize size offset ≤ size ∧
      (clipSize size offset : Int) ≤ 1024 - offset % 1024 ∧ clipSize size offset ≤ 1024 := by
  have hclip := clipSize_of_nonneg size offset ho hs
  omega

/-- A chunk that stays below the next 1024-byte boundary stays below every
later multiple of 1024. -/
theorem chunk_below_boundary (offset c n : Int) (h : offset < n * 1024)
    (hc : c ≤ 1024 - offset % 1024) : offset + c ≤ n * 1024 := by
  omega

/-- An iteration whose chunk returns `c` bytes, `1 ≤ c ≤ size`, advances all four
loop variables by `c`. -/
theorem loop_step_advance (g : Globals) (dev : Dev) (path : String) (fuel : Nat)
    (st : ReadState) (ch : Chunk) (c : Nat) (m : Mem) (t : List PhysRead)
    (htr : lofile_read_a_little g path st.size st.offset = some ch)
    (hrun : runChunk dev ch st.buf st.mem st.trace = ((c : Int), m, t))
    (hc1 : 1 ≤ c) (hc2 : c ≤ st.size)
    (hret : st.retsz + st.size < 18446744073709551616) :
    lofile_read_loop g dev path (fuel + 1) st =
      lofile_read_loop g dev path fuel
        { size := st.size - c, buf := st.buf + c, retsz := st.retsz + c,
          offset := st.offset + c, mem := m, trace := t } := by
  have h0 : ¬ st.size = 0 := by omega
  have hcz : ¬ (c : Int) = 0 := by omega
  rw [lofile_read_loop, if_neg h0, htr]
  simp only [hrun]
  rw [if_neg hcz, wrapU64_natSub _ _ hc2 (by omega), wrapU64_natAdd _ _ (by omega)]

/-- An iteration at or past the end of the file ends the loop. -/
theorem loop_step_eof (g : Globals) (dev : Dev) (fuel : Nat) (st : ReadState)
    (h0 : st.size ≠ 0) (hge : totalSize g ≤ st.offset) :
    lofile_read_loop g dev lofile_path (fuel + 1) st = Except.ok st := by
  have htr : lofile_read_a_little g lofile_path st.size st.offset = some Chunk.eof := by
    unfold lofile_read_a_little
    simp only [ne_eq, not_true_eq_false, if_false]
    rw [if_pos (by omega)]
  rw [lofile_read_loop, if_neg h0, htr]
  simp [runChunk]

/-- With nothing left to read the loop ends at once. -/
theorem loop_done (g : Globals) (dev : Dev) (path : String) (fuel : Nat) (st : ReadState)
    (h0 : st.size = 0) : lofile_read_loop g dev path fuel st = Except.ok st := by
  cases fuel <;> simp [lofile_read_loop, h0]

theorem runChunk_zero (dev : Dev) (c : Nat) (buf : Int) (mem : Mem) (t : List PhysRead)
    (hc : c ≤ 1024) :
    runChunk dev (Chunk.zero c) buf mem t = ((c : Int), store mem buf (List.replicate c 0), t) := by
  simp only [runChunk]
  rw [wrapI32_of_range _ (by omega) (by omega)]

theorem runChunk_served (dev : Dev) (fd : Int) (c : Nat) (off : Int) (buf : Int) (mem : Mem)
    (t : List PhysRead) (bytes : List Nat) (hc : c ≤ 1024)
    (hb : dev.pread64 fd c off = PreadResult.data bytes) (hlen : c ≤ bytes.length) :
    runChunk dev (Chunk.pread fd c off) buf mem t
      = ((c : Int), store mem buf (bytes.take c), t ++ [⟨fd, c, off⟩]) := by
  simp only [runChunk, hb, List.length_take, Nat.min_eq_left hlen]
  rw [wrapI32_of_range _ (by omega) (by omega)]

/-! ## Requests inside an unmapped block -/

theorem store_zero_inside (m : Mem) (pos : Int) (n : Nat) (i : Int) (h0 : pos ≤ i)
    (h1 : i < pos + n) : store m pos (List.replicate n 0) i = some 0 := by
  unfold store
  simp only [List.length_replicate]
  rw [if_pos ⟨h0, h1⟩, List.getElem?_replicate, if_pos (by omega)]

theorem store_outside (m : Mem) (pos : Int) (bytes : List Nat) (i : Int) (h : i < pos) :
    store m pos bytes i = m i := by
  unfold store
  rw [if_neg (by omega)]

/-- A request inside one unmapped block is served by zero-fills alone. -/
theorem read_loop_unmapped (g : Globals) (dev : Dev) (b : Nat) (e : fwdtab)
    (hsz : IsInt32 g._tabsz) (hb : (b : Int) < g._tabsz) (he : g._tab[b]? = some e)
    (hc : e.confidence < 0) :
    ∀ (fuel : Nat) (st : ReadState), st.size ≤ fuel →
      (b : Int) * 4194304 ≤ st.offset →
      st.offset + st.size ≤ ((b : Int) + 1) * 4194304 →
      st.retsz + st.size < 9223372036854775808 →
      ∃ st', lofile_read_loop g dev lofile_path fuel st = Except.ok st' ∧
        st'.retsz = st.retsz + st.size ∧ st'.trace = st.trace ∧
        (∀ i, st.buf ≤ i → i < st.buf + st.size → st'.mem i = some 0) ∧
        (∀ i, i < st.buf → st'.mem i = st.mem i) := by
  intro fuel
  induction fuel with
  | zero =>
    intro st hf _ _ _
    have h0 : st.size = 0 := by omega
    refine ⟨st, loop_done g dev _ 0 st h0, by omega, rfl, ?_, fun i _ => rfl⟩
    intro i h1 h2
    rw [h0] at h2
    omega
  | succ fuel ih =>
    intro st hf hlo hhi hret
    by_cases h0 : st.size = 0
    · refine ⟨st, loop_done g dev _ _ st h0, by omega, rfl, ?_, fun i _ => rfl⟩
      intro i h1 h2
      rw [h0] at h2
      omega
    · have hpos : 0 < st.size := Nat.pos_of_ne_zero h0
      have ho : 0 ≤ st.offset := by clear ih hsz hb he hc hf hhi hret; omega
      have hlt : st.offset < ((b : Int) + 1) * 4194304 := by
        clear ih hsz hb he hc hf hlo hret; omega
      have htr := translate_unmapped g b e st.size st.offset hsz hb he hc hlo hlt
      obtain ⟨hc1, hc2, hc3, hc4⟩ := clipSize_bounds st.size st.offset ho hpos
        (by clear ih hsz hb he hc hf hlo hhi hlt; omega)
      generalize clipSize st.size st.offset = c at htr hc1 hc2 hc3 hc4
      have hin : st.offset + c ≤ ((b : Int) + 1) * 4194304 := by
        have := chunk_below_boundary st.offset c (((b : Int) + 1) * 4096)
          (by clear ih hsz hb he hc hf hlo hhi hret hc1 hc2 hc3 hc4 htr; omega) hc3
        clear ih hsz hb he hc hf hlo hhi hret hc1 hc2 hc3 hc4 htr
        omega
      have hstep := loop_step_advance g dev lofile_path fuel st _ c _ _ htr
        (runChunk_zero dev c st.buf st.mem st.trace hc4) hc1 hc2
        (by clear ih hsz hb he hc hf hlo hhi hlt hin hc3; omega)
      obtain ⟨st', hrun, hr, ht, hz, hkeep⟩ := ih
        { size := st.size - c, buf := st.buf + c, retsz := st.retsz + c,
          offset := st.offset + c, mem := store st.mem st.buf (List.replicate c 0),
          trace := st.trace }
        (by simp only; clear ih hsz hb he hc hlo hhi hlt hin hc3 hstep hret; omega)
        (by simp only; clear ih hsz hb he hc hf hhi hlt hin hc3 hstep hret; omega)
        (by simp only; clear ih hsz hb he hc hf hlo hlt hin hc3 hstep hret; omega)
        (by simp only; clear ih hsz hb he hc hf hlo hhi hlt hin hc3 hstep; omega)
      simp only at hr ht hz hkeep
      refine ⟨st', by rw [hstep]; exact hrun, ?_, ht, ?_, ?_⟩
      · rw [hr]
        clear ih hsz hb he hc hf hlo hhi hlt hin hc3 hstep hret hz hkeep
        omega
      · intro i h1 h2
        by_cases hi : i < st.buf + c
        · rw [hkeep i hi]
          exact store_zero_inside _ _ _ _ h1 hi
        · refine hz i (by clear ih hz hkeep; omega) ?_
          clear ih hz hkeep hsz hb he hc hf hlo hhi hlt hin hc3 hstep hret
          omega
      · intro i hi
        rw [hkeep i (by clear ih hz hkeep; omega)]
        exact store_outside _ _ _ _ hi

/-- The bytes a request of `size` bytes at `offset` can get from a file of `total` bytes. -/
theorem avail_step (size c : Nat) (offset total : Int) (hc2 : c ≤ size)
    (hin : offset + c ≤ total) :
    (c : Int) + (if offset + c < total then min ((size - c : Nat) : Int) (total - (offset + c))
        else 0)
      = min (size : Int) (total - offset) := by
  split <;> omega

/-- With a device that serves in full the reads of a request ending at `e`, the
loop produces `min size (totalSize - offset)` bytes, or none at or past the
end of the file. -/
theorem read_loop_served (g : Globals) (dev : Dev) (lo e : Int)
    (hsz : IsInt32 g._tabsz) (htab : (g._tab.length : Int) = g._tabsz)
    (hdev : ∀ (pos : Int) (sz : Nat) (fd : Int) (n : Nat) (off : Int),
      lo ≤ pos → (pos = lo ∨ pos % 1024 = 0) → 1 ≤ sz → pos + sz = e →
      lofile_read_a_little g lofile_path sz pos = some (Chunk.pread fd n off) →
      ∃ bytes, dev.pread64 fd n off = PreadResult.data bytes ∧ n ≤ bytes.length) :
    ∀ (fuel : Nat) (st : ReadState), st.size ≤ fuel → 0 ≤ st.offset →
      lo ≤ st.offset → (st.size ≠ 0 → st.offset = lo ∨ st.offset % 1024 = 0) →
      st.offset + st.size = e →
      st.retsz + st.size < 9223372036854775808 →
      ∃ st', lofile_read_loop g dev lofile_path fuel st = Except.ok st' ∧
        (st'.retsz : Int) = st.retsz +
          (if st.offset < totalSize g then min (st.size : Int) (totalSize g - st.offset)
            else 0) := by
  intro fuel
  induction fuel with
  | zero =>
    intro st hf _ _ _ _ _
    have h0 : st.size = 0 := by omega
    refine ⟨st, loop_done g dev _ 0 st h0, ?_⟩
    rw [h0]
    split <;> omega
  | succ fuel ih =>
    intro st hf ho hlo hal he hret
    by_cases h0 : st.size = 0
    · refine ⟨st, loop_done g dev _ _ st h0, ?_⟩
      rw [h0]
      split <;> omega
    · by_cases hlt : st.offset < totalSize g
      · have hpos : 0 < st.size := Nat.pos_of_ne_zero h0
        obtain ⟨hc1, hc2, hc3, hc4⟩ := clipSize_bounds st.size st.offset ho hpos
          (by clear ih hdev; omega)
        have hin : st.offset + clipSize st.size st.offset ≤ totalSize g := by
          have := chunk_below_boundary st.offset (clipSize st.size st.offset)
            (g._tabsz * 4096) (by rw [totalSize_eq] at hlt; clear ih hdev; omega) hc3
          rw [totalSize_eq]
          clear ih hdev hc1 hc2 hc3 hc4
          omega
        have hstep : ∃ m t, lofile_read_loop g dev lofile_path (fuel + 1) st =
            lofile_read_loop g dev lofile_path fuel
              { size := st.size - clipSize st.size st.offset
                buf := st.buf + clipSize st.size st.offset
                retsz := st.retsz + clipSize st.size st.offset
                offset := st.offset + clipSize st.size st.offset
                mem := m, trace := t } := by
          rcases translate_in_range g st.size st.offset hsz htab ho hlt with htr | ⟨fd, off, htr⟩
          · exact ⟨_, _, loop_step_advance g dev lofile_path fuel st _ _ _ _ htr
              (runChunk_zero dev _ st.buf st.mem st.trace hc4) hc1 hc2 (by clear ih hdev; omega)⟩
          · obtain ⟨bytes, hbytes, hlen⟩ := hdev st.offset st.size fd
              (clipSize st.size st.offset) off hlo (hal h0) hpos he htr
            exact ⟨_, _, loop_step_advance g dev lofile_path fuel st _ _ _ _ htr
              (runChunk_served dev fd _ off st.buf st.mem st.trace bytes hc4 hbytes hlen)
              hc1 hc2 (by clear ih hdev; omega)⟩
        obtain ⟨m, t, hm⟩ := hstep
        have hnext : st.size - clipSize st.size st.offset ≠ 0 →
            st.offset + clipSize st.size st.offset = lo ∨
              (st.offset + clipSize st.size st.offset) % 1024 = 0 := by
          have hclip := clipSize_of_nonneg st.size st.offset ho (by clear ih hdev; omega)
          clear ih hdev hm hin hal
          omega
        generalize clipSize st.size st.offset = c at hm hc1 hc2 hc3 hc4 hin hnext
        obtain ⟨st', hrun, hr⟩ := ih
          { size := st.size - c, buf := st.buf + c, retsz := st.retsz + c,
            offset := st.offset + c, mem := m, trace := t }
          (by simp only; clear ih hdev; omega) (by simp only; clear ih hdev; omega)
          (by simp only; clear ih hdev; omega) hnext (by simp only; clear ih hdev; omega)
          (by simp only; clear ih hdev; omega)
        refine ⟨st', by rw [hm]; exact hrun, ?_⟩
        rw [hr]
        simp only
        rw [if_pos hlt, ← avail_step st.size c st.offset (totalSize g) hc2 hin]
        push_cast
        ring
      · refine ⟨st, loop_step_eof g dev fuel st h0 (by omega), ?_⟩
        rw [if_neg hlt]
        omega

/-! ## The patch table as an occupied initial segment -/

theorem tableOf_length (occ : List patch) (h : occ.length ≤ NPATCHES * 2) :
    (tableOf occ).length = NPATCHES * 2 := by
  simp only [tableOf, List.length_append, List.length_replicate]
  omega

theorem tableOf_nil : tableOf [] = emptyPatches := rfl

theorem slotAt_tableOf (occ : List patch) (j : Nat) :
    slotAt (tableOf occ) j = occ.getD j zeroPatch := by
  unfold slotAt tableOf
  by_cases h : j < occ.length
  · rw [List.getD_append _ _ _ _ h]
  · rw [List.getD_append_right _ _ _ _ (by omega), List.getD_eq_default occ _ (by omega)]
    simp only [List.getD_eq_getElem?_getD, List.getElem?_replicate]
    split <;> rfl

theorem findIdx_free_or_holds (occ : List patch) (s : Int) (h : ∀ p ∈ occ, p.sector ≠ 0) :
    occ.findIdx (fun p => decide (p.sector = 0) || decide (p.sector = s))
      = occ.findIdx (holds s) := by
  induction occ with
  | nil => rfl
  | cons p ps ih =>
    have hp : p.sector ≠ 0 := h p (List.mem_cons_self _ _)
    rw [List.findIdx_cons, List.findIdx_cons, ih (fun q hq => h q (List.mem_cons_of_mem _ hq))]
    simp [holds, hp]

/-- On a table with occupied part `occ`, the scan of lines 220-222 for a non-zero
sector stops at the slot that holds it, else at the first free slot, else at 512. -/
theorem findSlot_tableOf (occ : List patch) (s : Int) (hocc : Occ occ) :
    findSlot (tableOf occ) s = occ.findIdx (holds s) := by
  unfold findSlot
  rw [List.take_of_length_le (by rw [tableOf_length occ hocc.len])]
  unfold tableOf
  rw [List.findIdx_append, findIdx_free_or_holds occ s hocc.inuse]
  split
  · rfl
  · rename_i hnot
    have hle := @List.findIdx_le_length _ (holds s) occ
    have : List.findIdx (fun p => decide (p.sector = 0) || decide (p.sector = s))
        (List.replicate (NPATCHES * 2 - occ.length) zeroPatch) = 0 := by
      cases hn : NPATCHES * 2 - occ.length with
      | zero => rfl
      | succ n => rw [List.replicate_succ, List.findIdx_cons]; rfl
    omega

theorem set_tableOf_lt (occ : List patch) (j : Nat) (p : patch) (hj : j < occ.length) :
    (tableOf occ).set j p = tableOf (occ.set j p) := by
  unfold tableOf
  rw [List.set_append_left _ _ hj, List.length_set]

theorem set_tableOf_length (occ : List patch) (p : patch) (h : occ.length < NPATCHES * 2) :
    (tableOf occ).set occ.length p = tableOf (occ ++ [p]) := by
  unfold tableOf
  rw [List.set_append_right _ _ (Nat.le_refl _), Nat.sub_self, List.length_append,
    List.length_singleton, List.append_assoc]
  congr 1
  obtain ⟨n, hn⟩ : ∃ n, NPATCHES * 2 - occ.length = n + 1 := ⟨NPATCHES * 2 - occ.length - 1, by omega⟩
  rw [hn, List.replicate_succ, List.set_cons_zero]
  have : NPATCHES * 2 - (occ.length + 1) = n := by omega
  rw [this]
  rfl

theorem holds_iff (s : Int) (p : patch) : holds s p = true ↔ p.sector = s := by
  simp [holds]

theorem holds_false_iff (s : Int) (p : patch) : holds s p = false ↔ p.sector ≠ s := by
  simp [holds]

/-- The slot at which the scan for `s` stops holds `s`, when it is an occupied one. -/
theorem sector_at_findIdx (occ : List patch) (s : Int)
    (h : occ.findIdx (holds s) < occ.length) : (occ[occ.findIdx (holds s)]).sector = s :=
  (holds_iff s _).mp (@List.findIdx_getElem _ (holds s) occ h)

/-- One in-use record, table not full: the loop goes on with the updated table. -/
theorem install_loop_cons (pfilfd : Int) (occ : List patch) (r : patch) (rest : List patch)
    (hocc : Occ occ) (hr : r.sector ≠ 0) (hroom : occ.findIdx (holds r.sector) < NPATCHES * 2) :
    install_loop pfilfd (tableOf occ) (r :: rest)
      = install_loop pfilfd (tableOf (installOcc pfilfd occ r)) rest := by
  have hle := @List.findIdx_le_length _ (holds r.sector) occ
  have hget : (tableOf occ).getD (occ.findIdx (holds r.sector)) zeroPatch
      = occ.getD (occ.findIdx (holds r.sector)) zeroPatch := slotAt_tableOf occ _
  rw [install_loop, if_neg hr]
  simp only [findSlot_tableOf occ r.sector hocc, hget]
  rw [if_neg (by omega)]
  unfold installOcc
  simp only
  by_cases hc : r.confidence > (occ.getD (occ.findIdx (holds r.sector)) zeroPatch).confidence
  · rw [if_pos hc, if_pos hc]
    by_cases hj : occ.findIdx (holds r.sector) < occ.length
    · rw [if_pos hj, set_tableOf_lt occ _ _ hj]
    · rw [if_neg hj]
      have hjeq : occ.findIdx (holds r.sector) = occ.length := by omega
      rw [hjeq, set_tableOf_length occ _ (by omega)]
  · rw [if_neg hc, if_neg hc]

/-- One in-use record on a full table that does not hold its sector: the loop
ends and the table stays as it is. -/
theorem install_loop_full (pfilfd : Int) (occ : List patch) (r : patch) (rest : List patch)
    (hocc : Occ occ) (hr : r.sector ≠ 0) (hfull : occ.findIdx (holds r.sector) = NPATCHES * 2) :
    install_loop pfilfd (tableOf occ) (r :: rest) = tableOf occ := by
  rw [install_loop, if_neg hr]
  simp only [findSlot_tableOf occ r.sector hocc]
  rw [if_pos hfull]

theorem getD_findIdx_confidence (occ : List patch) (s : Int) (hocc : Occ occ) :
    0 ≤ (occ.getD (occ.findIdx (holds s)) zeroPatch).confidence := by
  by_cases hj : occ.findIdx (holds s) < occ.length
  · rw [List.getD_eq_getElem _ _ hj]
    exact le_of_lt (hocc.conf _ (List.getElem_mem _))
  · rw [List.getD_eq_default _ _ (by omega)]
    decide

theorem map_sector_set (occ : List patch) (j : Nat) (p : patch) (hj : j < occ.length)
    (hs : p.sector = (occ[j]).sector) :
    (occ.set j p).map patch.sector = occ.map patch.sector := by
  apply List.ext_getElem
  · simp
  · intro i h1 h2
    simp only [List.getElem_map, List.getElem_set]
    split
    · rename_i h; subst h; exact hs
    · rfl

/-- The occupied part stays well formed when a record is installed. -/
theorem Occ_installOcc (pfilfd : Int) (occ : List patch) (r : patch) (hocc : Occ occ)
    (hr : r.sector ≠ 0) (hroom : occ.findIdx (holds r.sector) < NPATCHES * 2) :
    Occ (installOcc pfilfd occ r) := by
  have hle := @List.findIdx_le_length _ (holds r.sector) occ
  have h0 := getD_findIdx_confidence occ r.sector hocc
  unfold installOcc
  simp only
  split
  · rename_i hc
    have hpos : 0 < (installed pfilfd r).confidence := lt_of_le_of_lt h0 hc
    split
    · rename_i hj
      have hsec := sector_at_findIdx occ r.sector hj
      refine ⟨by rw [List.length_set]; exact hocc.len, ?_, ?_, ?_⟩
      · intro p hp
        rcases List.mem_or_eq_of_mem_set hp with h | h
        · exact hocc.inuse p h
        · rw [h]; exact hr
      · intro p hp
        rcases List.mem_or_eq_of_mem_set hp with h | h
        · exact hocc.conf p h
        · rw [h]; exact hpos
      · rw [map_sector_set occ _ (installed pfilfd r) hj hsec.symm]
        exact hocc.nodup
    · rename_i hj
      have hjeq : occ.findIdx (holds r.sector) = occ.length := by omega
      have hnone := List.findIdx_eq_length.mp hjeq
      refine ⟨by rw [List.length_append, List.length_singleton]; omega, ?_, ?_, ?_⟩
      · intro p hp
        rcases List.mem_append.mp hp with h | h
        · exact hocc.inuse p h
        · rw [List.mem_singleton.mp h]; exact hr
      · intro p hp
        rcases List.mem_append.mp hp with h | h
        · exact hocc.conf p h
        · rw [List.mem_singleton.mp h]; exact hpos
      · rw [List.map_append, List.map_singleton]
        apply List.Nodup.append hocc.nodup (List.nodup_singleton _)
        intro x hx hx2
        rw [List.mem_singleton] at hx2
        obtain ⟨p, hp, hpx⟩ := List.mem_map.mp hx
        have := (holds_false_iff r.sector p).mp (hnone p hp)
        apply this
        rw [hpx, hx2]
        rfl
  · exact hocc

theorem Occ_nil : Occ [] :=
  ⟨by decide, fun _ h => absurd h (List.not_mem_nil _), fun _ h => absurd h (List.not_mem_nil _),
    List.nodup_nil⟩

/-- Whatever the records, the loop of lines 214-234 keeps the table of the form
"well-formed occupied part, then zero slots". -/
theorem install_loop_tableOf (pfilfd : Int) (recs : List patch) :
    ∀ occ, Occ occ → ∃ occ', Occ occ' ∧ install_loop pfilfd (tableOf occ) recs = tableOf occ' := by
  induction recs with
  | nil => intro occ hocc; exact ⟨occ, hocc, rfl⟩
  | cons r rest ih =>
    intro occ hocc
    by_cases hr : r.sector = 0
    · exact ⟨occ, hocc, by rw [install_loop, if_pos hr]⟩
    · by_cases hroom : occ.findIdx (holds r.sector) < NPATCHES * 2
      · obtain ⟨occ', h1, h2⟩ := ih _ (Occ_installOcc pfilfd occ r hocc hr hroom)
        exact ⟨occ', h1, by rw [install_loop_cons pfilfd occ r rest hocc hr hroom, h2]⟩
      · have hle := @List.findIdx_le_length _ (holds r.sector) occ
        have := hocc.len
        exact ⟨occ, hocc, install_loop_full pfilfd occ r rest hocc hr (by omega)⟩

theorem load_batch_tableOf (pfilfd : Int) (recs : List patch) (occ : List patch) (hocc : Occ occ)
    (t : List patch) (h : load_batch (tableOf occ) pfilfd recs = some t) :
    ∃ occ', Occ occ' ∧ t = tableOf occ' := by
  unfold load_batch at h
  split at h
  · exact absurd h (by simp)
  · obtain ⟨occ', h1, h2⟩ := install_loop_tableOf pfilfd (recs.take NPATCHES) occ hocc
    rw [h2] at h
    exact ⟨occ', h1, (Option.some.inj h).symm⟩

theorem load_batches_tableOf (batches : List (Int × List patch)) :
    ∀ (occ : List patch), Occ occ → ∀ t, load_batches (tableOf occ) batches = some t →
      ∃ occ', Occ occ' ∧ t = tableOf occ' := by
  induction batches with
  | nil =>
    intro occ hocc t h
    exact ⟨occ, hocc, (Option.some.inj h).symm⟩
  | cons b rest ih =>
    intro occ hocc t h
    obtain ⟨fd, recs⟩ := b
    rw [load_batches] at h
    cases hb : load_batch (tableOf occ) fd recs with
    | none => rw [hb] at h; exact absurd h (by simp)
    | some t1 =>
      rw [hb] at h
      obtain ⟨occ1, h1, h2⟩ := load_batch_tableOf fd recs occ hocc t1 hb
      rw [h2] at h
      exact ih occ1 h1 t h

theorem slotAt_occupied (occ : List patch) (j : Nat) (hj : j < occ.length) :
    slotAt (tableOf occ) j = occ[j] := by
  rw [slotAt_tableOf, List.getD_eq_getElem _ _ hj]

theorem slotAt_free (occ : List patch) (j : Nat) (hj : occ.length ≤ j) :
    slotAt (tableOf occ) j = zeroPatch := by
  rw [slotAt_tableOf, List.getD_eq_default _ _ hj]

theorem slot_occupied_iff (occ : List patch) (hocc : Occ occ) (j : Nat) :
    (slotAt (tableOf occ) j).sector ≠ 0 ↔ j < occ.length := by
  constructor
  · intro h
    by_contra hj
    rw [slotAt_free occ j (by omega)] at h
    exact h rfl
  · intro hj
    rw [slotAt_occupied occ j hj]
    exact hocc.inuse _ (List.getElem_mem _)

theorem occ_sector_inj (occ : List patch) (hocc : Occ occ) (i j : Nat) (hi : i < occ.length)
    (hj : j < occ.length) (h : (occ[i]).sector = (occ[j]).sector) : i = j := by
  have hi2 : i < (occ.map patch.sector).length := by rw [List.length_map]; exact hi
  have hj2 : j < (occ.map patch.sector).length := by rw [List.length_map]; exact hj
  have := (@List.Nodup.getElem_inj_iff _ _ hocc.nodup i hi2 j hj2).mp
    (by simp only [List.getElem_map]; exact h)
  exact this

/-! ## The index arithmetic at non-negative offsets -/

theorem secOf_of_nonneg (offset : Int) (ho : 0 ≤ offset) :
    secOf offset = offset % 8192 / 1024 := by
  unfold secOf
  simp only [SECBLOCK, SECCNT]
  rw [tmod_of_nonneg offset _ ho (by norm_num),
    tdiv_of_nonneg _ _ (Int.emod_nonneg _ (by norm_num)) (by norm_num)]
  rfl

theorem secofsOf_of_nonneg (offset : Int) (ho : 0 ≤ offset) :
    secofsOf offset = offset % 1024 := by
  unfold secofsOf
  simp only [SECBLOCK]
  rw [tmod_of_nonneg offset _ ho (by norm_num)]

theorem pageOf_of_nonneg (offset : Int) (ho : 0 ≤ offset) :
    pageOf offset = offset % 4194304 / 8192 := by
  unfold pageOf
  simp only [SECBLOCK, SECCNT, BLOCKSZ]
  rw [tmod_of_nonneg offset _ ho (by norm_num),
    tdiv_of_nonneg _ _ (Int.emod_nonneg _ (by norm_num)) (by norm_num)]
  rfl

/-- On a non-negative `int` the shifts and the mask of lines 139-142 are the
ones of the natural numbers. -/
theorem splitOf_natCast (p : Nat) :
    splitOf (p : Int) = (((p >>> 1) + ((p &&& 1) <<< 8) : Nat) : Int) := rfl

theorem land_one_natCast (x : Nat) : Int.land (x : Int) 1 = ((x &&& 1 : Nat) : Int) := rfl

theorem shiftRight_one_natCast (x : Nat) : ((x : Int) >>> 1) = ((x >>> 1 : Nat) : Int) := rfl

theorem patchMatches_of_nonneg (offset : Int) (ho : 0 ≤ offset) (p : patch) :
    patchMatches offset p
      = (decide (p.sector ≠ 0) && decide (Int.tdiv p.sector 16 = offset / 8192)) := by
  unfold patchMatches
  rw [tdiv_of_nonneg offset _ ho (by norm_num)]
  rfl

theorem find_take_none (ps : List patch) (n : Nat) (f : patch → Bool)
    (h : ∀ p ∈ ps, f p = false) : (ps.take n).find? f = none := by
  rw [List.find?_eq_none]
  intro p hp
  rw [h p (List.mem_of_mem_take hp)]
  simp

/-- The block index of an offset below `totalSize` is below `_tabsz`. -/
theorem block_in_range (g : Globals) (offset : Int) (ho : 0 ≤ offset)
    (hlt : offset < totalSize g) :
    ((offset / 4194304).toNat : Int) = offset / 4194304 ∧ offset / 4194304 < g._tabsz ∧
    offset / 4194304 * 4194304 ≤ offset ∧ offset < (offset / 4194304 + 1) * 4194304 := by
  rw [totalSize_eq] at hlt
  omega

/-- No slot of the zero table passes the test of line 128. -/
theorem no_match_emptyPatches (offset : Int) :
    ∀ p ∈ emptyPatches, patchMatches offset p = false := by
  intro p hp
  rw [List.eq_of_mem_replicate hp]
  rfl

/-! ## Installing the records of a batch one by one -/

theorem installOcc_length_le (fd : Int) (occ : List patch) (r : patch) :
    (installOcc fd occ r).length ≤ occ.length + 1 := by
  unfold installOcc
  simp only
  split
  · split
    · rw [List.length_set]; omega
    · rw [List.length_append, List.length_singleton]
  · omega

theorem installOcc_length_ge (fd : Int) (occ : List patch) (r : patch) :
    occ.length ≤ (installOcc fd occ r).length := by
  unfold installOcc
  simp only
  split
  · split
    · rw [List.length_set]
    · rw [List.length_append, List.length_singleton]; omega
  · omega

/-- While there is room, the loop over in-use records is a fold of `installOcc`. -/
theorem install_loop_eq_foldl (fd : Int) :
    ∀ (recs occ : List patch), Occ occ → (∀ r ∈ recs, r.sector ≠ 0) →
      occ.length + recs.length ≤ NPATCHES * 2 →
      install_loop fd (tableOf occ) recs = tableOf (recs.foldl (installOcc fd) occ) ∧
      Occ (recs.foldl (installOcc fd) occ) ∧
      (recs.foldl (installOcc fd) occ).length ≤ occ.length + recs.length ∧
      occ.length ≤ (recs.foldl (installOcc fd) occ).length := by
  intro recs
  induction recs with
  | nil => intro occ hocc _ _; exact ⟨rfl, hocc, Nat.le_refl _, Nat.le_refl _⟩
  | cons r rest ih =>
    intro occ hocc hin hroom
    have hr : r.sector ≠ 0 := hin r (List.mem_cons_self _ _)
    have hle := @List.findIdx_le_length _ (holds r.sector) occ
    rw [List.length_cons] at hroom
    have hfree : occ.findIdx (holds r.sector) < NPATCHES * 2 := by omega
    have h1 := installOcc_length_le fd occ r
    have h2 := installOcc_length_ge fd occ r
    obtain ⟨e1, e2, e3, e4⟩ := ih (installOcc fd occ r) (Occ_installOcc fd occ r hocc hr hfree)
      (fun q hq => hin q (List.mem_cons_of_mem _ hq)) (by omega)
    rw [List.foldl_cons, List.length_cons]
    exact ⟨by rw [install_loop_cons fd occ r rest hocc hr hfree, e1], e2, by omega, by omega⟩

theorem install_loop_zero (fd : Int) (t : List patch) (r : patch) (rest : List patch)
    (hr : r.sector = 0) : install_loop fd t (r :: rest) = t := by
  simp [install_loop, hr]

/-- The loop of line 214 never looks past the first record with `sector == 0`. -/
theorem install_loop_takeWhile (fd : Int) :
    ∀ (recs t : List patch), install_loop fd t recs
      = install_loop fd t (recs.takeWhile (fun r => decide (r.sector ≠ 0))) := by
  intro recs
  induction recs with
  | nil => intro t; rfl
  | cons r rest ih =>
    intro t
    by_cases hr : r.sector = 0
    · rw [List.takeWhile_cons_of_neg (by simp [hr])]
      rw [install_loop_zero fd t r rest hr]
      rfl
    · rw [List.takeWhile_cons_of_pos (by simp [hr])]
      simp only [install_loop, if_neg hr]
      split
      · rfl
      · split
        · exact ih _
        · exact ih _

theorem load_batch_eq (t : List patch) (fd : Int) (b : List patch) (hb : NPATCHES ≤ b.length) :
    load_batch t fd b = some (install_loop fd t (inUse b)) := by
  unfold load_batch inUse
  rw [if_neg (by omega), ← install_loop_takeWhile]

theorem inUse_sector_ne_zero (b : List patch) : ∀ r ∈ inUse b, r.sector ≠ 0 := by
  intro r hr
  have := List.mem_takeWhile_imp hr
  simpa using this

theorem inUse_length_le (b : List patch) : (inUse b).length ≤ NPATCHES := by
  unfold inUse
  exact le_trans (List.takeWhile_sublist _).length_le (List.length_take_le _ _)

/-- A record whose sector is not in the table goes to the first free slot. -/
theorem installOcc_absent (fd : Int) (occ : List patch) (r : patch)
    (habs : ∀ p ∈ occ, p.sector ≠ r.sector) (hc : 0 < r.confidence) :
    installOcc fd occ r = occ ++ [installed fd r] := by
  have hidx : occ.findIdx (holds r.sector) = occ.length :=
    List.findIdx_eq_length.mpr (fun p hp => (holds_false_iff _ _).mpr (habs p hp))
  unfold installOcc
  simp only [hidx]
  rw [List.getD_eq_default _ _ (Nat.le_refl _), if_pos (by exact hc), if_neg (Nat.lt_irrefl _)]

/-- Records with positive confidences and pairwise distinct sectors, none of
them in the table, are appended in order. -/
theorem foldl_installOcc_fresh (fd : Int) :
    ∀ (recs occ : List patch), (∀ r ∈ recs, 0 < r.confidence) →
      (recs.map patch.sector).Nodup → (∀ r ∈ recs, ∀ p ∈ occ, p.sector ≠ r.sector) →
      recs.foldl (installOcc fd) occ = occ ++ recs.map (installed fd) := by
  intro recs
  induction recs with
  | nil => intro occ _ _ _; simp
  | cons r rest ih =>
    intro occ hc hnd hfresh
    rw [List.map_cons, List.nodup_cons] at hnd
    rw [List.foldl_cons, installOcc_absent fd occ r (hfresh r (List.mem_cons_self _ _))
      (hc r (List.mem_cons_self _ _)),
      ih _ (fun q hq => hc q (List.mem_cons_of_mem _ hq)) hnd.2 ?_]
    · simp
    · intro q hq p hp
      rcases List.mem_append.mp hp with h | h
      · exact hfresh q (List.mem_cons_of_mem _ hq) p h
      · rw [List.mem_singleton.mp h]
        intro heq
        exact hnd.1 (List.mem_map.mpr ⟨q, hq, heq.symm⟩)

/-! ## A full table -/

theorem inUse_eq_self (b : List patch) (hlen : b.length ≤ NPATCHES)
    (hnz : ∀ r ∈ b, r.sector ≠ 0) : inUse b = b := by
  unfold inUse
  rw [List.take_of_length_le hlen, List.takeWhile_eq_self_iff]
  intro r hr
  simpa using hnz r hr

theorem fullBatchA_length : fullBatchA.length = 256 := by simp [fullBatchA]

theorem fullBatchB_length : fullBatchB.length = 256 := by simp [fullBatchB]

theorem fullBatchA_mem (r : patch) (hr : r ∈ fullBatchA) :
    ∃ i : Nat, i < 256 ∧ r = ⟨16 * ((i : Int) + 1), (i : Int), 1, 0⟩ := by
  obtain ⟨i, hi, rfl⟩ := List.mem_map.mp hr
  exact ⟨i, List.mem_range.mp hi, rfl⟩

theorem fullBatchB_mem (r : patch) (hr : r ∈ fullBatchB) :
    ∃ i : Nat, i < 256 ∧ r = ⟨16 * ((i : Int) + 257), (i : Int), 1, 0⟩ := by
  obtain ⟨i, hi, rfl⟩ := List.mem_map.mp hr
  exact ⟨i, List.mem_range.mp hi, rfl⟩

theorem fullBatchA_inUse : inUse fullBatchA = fullBatchA := by
  apply inUse_eq_self _ (by rw [fullBatchA_length]; decide)
  intro r hr
  obtain ⟨i, _, rfl⟩ := fullBatchA_mem r hr
  simp only
  omega

theorem fullBatchB_inUse : inUse fullBatchB = fullBatchB := by
  apply inUse_eq_self _ (by rw [fullBatchB_length]; decide)
  intro r hr
  obtain ⟨i, _, rfl⟩ := fullBatchB_mem r hr
  simp only
  omega

theorem fullBatchA_nodup : (fullBatchA.map patch.sector).Nodup := by
  have h : fullBatchA.map patch.sector
      = (List.range 256).map (fun (i : Nat) => 16 * ((i : Int) + 1)) := by
    simp [fullBatchA, Function.comp_def]
  rw [h]
  exact (List.nodup_range 256).map (fun a b hab => by have h2 : 16 * ((a : Int) + 1) = 16 * ((b : Int) + 1) := hab; omega)

theorem fullBatchB_nodup : (fullBatchB.map patch.sector).Nodup := by
  have h : fullBatchB.map patch.sector
      = (List.range 256).map (fun (i : Nat) => 16 * ((i : Int) + 257)) := by
    simp [fullBatchB, Function.comp_def]
  rw [h]
  exact (List.nodup_range 256).map (fun a b hab => by have h2 : 16 * ((a : Int) + 257) = 16 * ((b : Int) + 257) := hab; omega)

theorem fullBatchB_fresh :
    ∀ r ∈ fullBatchB, ∀ p ∈ [] ++ fullBatchA.map (installed 3), p.sector ≠ r.sector := by
  intro r hr p hp
  rw [List.nil_append] at hp
  obtain ⟨i, hi, rfl⟩ := fullBatchB_mem r hr
  obtain ⟨q, hq, rfl⟩ := List.mem_map.mp hp
  obtain ⟨j, hj, rfl⟩ := fullBatchA_mem q hq
  simp only [installed]
  omega

theorem fullTable_eq :
    tableOf ([] ++ fullBatchA.map (installed 3) ++ fullBatchB.map (installed 4)) = fullTable := by
  unfold tableOf
  simp [fullBatchA, fullBatchB, fullTable, NPATCHES, installed, Function.comp_def]

/-- The table `fullTable` is reached from the zero table by two batches. -/
theorem load_fullTable :
    load_batches emptyPatches [(3, fullBatchA), (4, fullBatchB)] = some fullTable := by
  have hA := install_loop_eq_foldl 3 fullBatchA [] Occ_nil
    (by rw [← fullBatchA_inUse]; exact inUse_sector_ne_zero _)
    (by rw [fullBatchA_length]; decide)
  rw [foldl_installOcc_fresh 3 fullBatchA []
    (fun r hr => by obtain ⟨i, _, rfl⟩ := fullBatchA_mem r hr; exact Int.one_pos) fullBatchA_nodup
    (fun _ _ _ h => absurd h (List.not_mem_nil _))] at hA
  have hB := install_loop_eq_foldl 4 fullBatchB _ hA.2.1
    (by rw [← fullBatchB_inUse]; exact inUse_sector_ne_zero _)
    (by simp [fullBatchA_length, fullBatchB_length, NPATCHES])
  rw [foldl_installOcc_fresh 4 fullBatchB _
    (fun r hr => by obtain ⟨i, _, rfl⟩ := fullBatchB_mem r hr; exact Int.one_pos) fullBatchB_nodup
    fullBatchB_fresh] at hB
  have hlenA : NPATCHES ≤ fullBatchA.length := by rw [fullBatchA_length]; decide
  have hlenB : NPATCHES ≤ fullBatchB.length := by rw [fullBatchB_length]; decide
  rw [load_batches, load_batch_eq _ _ _ hlenA, fullBatchA_inUse, ← tableOf_nil, hA.1]
  simp only
  rw [load_batches, load_batch_eq _ _ _ hlenB, fullBatchB_inUse, hB.1]
  simp only [load_batches]
  rw [fullTable_eq]

/-- When no slot is free and none holds `s`, the scan of lines 220-222 runs to
its end. -/
theorem findSlot_full (t : List patch) (s : Int)
    (hfull : ∀ j, j < NPATCHES * 2 → (slotAt t j).sector ≠ 0 ∧ (slotAt t j).sector ≠ s) :
    findSlot t s = NPATCHES * 2 := by
  have hlen : NPATCHES * 2 ≤ t.length := by
    by_contra hlt
    have := (hfull t.length (by omega)).1
    unfold slotAt at this
    rw [List.getD_eq_default _ _ (Nat.le_refl _)] at this
    exact this rfl
  unfold findSlot
  have hall : ∀ x ∈ t.take (NPATCHES * 2),
      (fun p : patch => decide (p.sector = 0) || decide (p.sector = s)) x = false := by
    intro x hx
    obtain ⟨j, hj, hxj⟩ := List.mem_iff_getElem.mp hx
    have hj2 : j < NPATCHES * 2 := by
      have := List.length_take_le (NPATCHES * 2) t
      omega
    have hslot : slotAt t j = x := by
      unfold slotAt
      rw [List.getD_eq_getElem _ _ (by omega), ← hxj, List.getElem_take]
    have := hfull j hj2
    rw [hslot] at this
    simp [this.1, this.2]
  rw [List.findIdx_eq_length.mpr hall, List.length_take]
  omega

theorem fullTable_mem (p : patch) (hp : p ∈ fullTable) :
    ∃ i : Nat, i < 512 ∧ p.sector = 16 * ((i : Int) + 1) := by
  unfold fullTable at hp
  rcases List.mem_append.mp hp with h | h
  · obtain ⟨i, hi, rfl⟩ := List.mem_map.mp h
    rw [List.mem_range] at hi
    exact ⟨i, by omega, rfl⟩
  · obtain ⟨i, hi, rfl⟩ := List.mem_map.mp h
    rw [List.mem_range] at hi
    refine ⟨i + 256, by omega, ?_⟩
    push_cast
    ring

theorem fullTable_length : fullTable.length = 512 := by simp [fullTable]

theorem fullTable_slot (j : Nat) (hj : j < NPATCHES * 2) :
    ∃ i : Nat, i < 512 ∧ (slotAt fullTable j).sector = 16 * ((i : Int) + 1) := by
  apply fullTable_mem
  unfold slotAt
  rw [List.getD_eq_getElem _ _ (by rw [fullTable_length]; exact hj)]
  exact List.getElem_mem _

/-! ## The scan of the reader -/

theorem find_first_match (f : patch → Bool) :
    ∀ (l : List patch) (j : Nat) (hj : j < l.length), f (l[j]) = true →
      (∀ i, i < j → f (l.getD i zeroPatch) = false) → l.find? f = some (l[j]) := by
  intro l
  induction l with
  | nil => intro j hj; exact absurd hj (Nat.not_lt_zero _)
  | cons p ps ih =>
    intro j hj hm hno
    cases j with
    | zero => exact List.find?_cons_of_pos _ hm
    | succ k =>
      have h0 : f p = false := hno 0 (Nat.succ_pos _)
      rw [List.find?_cons_of_neg _ (by rw [h0]; simp)]
      exact ih k (Nat.lt_of_succ_lt_succ hj) hm (fun i hi => hno (i + 1) (Nat.succ_lt_succ hi))

theorem patchMatches_zeroPatch (offset : Int) : patchMatches offset zeroPatch = false := rfl

/-- The scan of lines 127-135 returns the lowest matching slot among the
`NPATCHES` slots it looks at. -/
theorem scan_finds_first (t : List patch) (offset : Int) (j : Nat) (hj : j < NPATCHES)
    (hm : patchMatches offset (slotAt t j) = true)
    (hno : ∀ i, i < j → patchMatches offset (slotAt t i) = false) :
    (t.take NPATCHES).find? (patchMatches offset) = some (slotAt t j) := by
  have hlen : j < t.length := by
    by_contra h
    unfold slotAt at hm
    rw [List.getD_eq_default _ _ (by omega), patchMatches_zeroPatch] at hm
    exact Bool.false_ne_true hm
  have hj2 : j < (t.take NPATCHES).length := by rw [List.length_take]; omega
  have hget : (t.take NPATCHES)[j] = slotAt t j := by
    unfold slotAt
    rw [List.getElem_take, List.getD_eq_getElem _ _ hlen]
  rw [← hget]
  apply find_first_match _ _ j hj2 (by rw [hget]; exact hm)
  intro i hi
  have hi2 : i < (t.take NPATCHES).length := by omega
  have : (t.take NPATCHES).getD i zeroPatch = slotAt t i := by
    unfold slotAt
    rw [List.getD_eq_getElem _ _ hi2, List.getElem_take, List.getD_eq_getElem _ _ (by omega)]
  rw [this]
  exact hno i hi

/-- Patched translation for the slots the reader scans: in a mapped block, if
slot `j < NPATCHES` passes the test of line 128 and no lower slot does, the
translator reads from that slot's file at `pg * 8832 + sector * 1094 +
sectorOffset`, whatever the confidences and the forward map's `phys`. -/
theorem patched_translation_scanned (g : Globals) (b : Nat) (e : fwdtab) (size : Nat)
    (offset : Int) (j : Nat) (hsz : IsInt32 g._tabsz) (hb : (b : Int) < g._tabsz)
    (he : g._tab[b]? = some e) (hc : 0 ≤ e.confidence) (hlo : (b : Int) * 4194304 ≤ offset)
    (hhi : offset < ((b : Int) + 1) * 4194304) (hj : j < NPATCHES)
    (hm : patchMatches offset (slotAt g.patches j) = true)
    (hno : ∀ i, i < j → patchMatches offset (slotAt g.patches i) = false) :
    lofile_read_a_little g lofile_path size offset =
      some (Chunk.pread (slotAt g.patches j).fd (clipSize size offset)
        ((slotAt g.patches j).pg * 8832 + offset % 8192 / 1024 * 1094 + offset % 1024)) := by
  have ho : 0 ≤ offset := by omega
  rw [translate_patched g b e _ size offset hsz hb he hc hlo hhi
    (scan_finds_first g.patches offset j hj hm hno),
    secOf_of_nonneg offset ho, secofsOf_of_nonneg offset ho]
  rfl

/-! ## The effect of a batch on the slot of one sector -/

/-- A record for another sector leaves a slot as it is. -/
theorem installOcc_other (fd : Int) (occ : List patch) (r : patch) (j : Nat) (p : patch)
    (hp : occ[j]? = some p) (hne : p.sector ≠ r.sector) :
    (installOcc fd occ r)[j]? = some p := by
  obtain ⟨hj, hpj⟩ := List.getElem?_eq_some.mp hp
  unfold installOcc
  simp only
  split
  · split
    · rename_i hidx
      have hsec := sector_at_findIdx occ r.sector hidx
      have hneq : occ.findIdx (holds r.sector) ≠ j := by
        intro h
        apply hne
        rw [← hpj, ← hsec]
        congr 1
        simp only [h]
      rw [List.getElem?_set_ne hneq]
      exact hp
    · rw [List.getElem?_append_left hj]
      exact hp
  · exact hp

/-- The scan for the sector of an occupied slot stops at that slot. -/
theorem findIdx_of_slot (occ : List patch) (hocc : Occ occ) (j : Nat) (p : patch)
    (hp : occ[j]? = some p) : occ.findIdx (holds p.sector) = j := by
  obtain ⟨hj, hpj⟩ := List.getElem?_eq_some.mp hp
  rw [List.findIdx_eq hj]
  refine ⟨by rw [hpj]; exact (holds_iff _ _).mpr rfl, ?_⟩
  intro i hi
  rw [holds_false_iff]
  intro h
  have := occ_sector_inj occ hocc i j (by omega) hj (by rw [h, hpj])
  omega

/-- A record for the sector of slot `j` replaces the slot when its confidence
is strictly greater, and is dropped otherwise. -/
theorem installOcc_same (fd : Int) (occ : List patch) (hocc : Occ occ) (r : patch) (j : Nat)
    (p : patch) (hp : occ[j]? = some p) (hs : p.sector = r.sector) :
    (installOcc fd occ r)[j]? =
      some (if r.confidence > p.confidence then installed fd r else p) := by
  obtain ⟨hj, hpj⟩ := List.getElem?_eq_some.mp hp
  have hidx : occ.findIdx (holds r.sector) = j := by
    rw [← hs]; exact findIdx_of_slot occ hocc j p hp
  unfold installOcc
  simp only [hidx]
  rw [List.getD_eq_getElem _ _ hj, hpj]
  by_cases hc : r.confidence > p.confidence
  · rw [if_pos hc, if_pos hc, if_pos hj, List.getElem?_set_self hj]
  · rw [if_neg hc, if_neg hc]
    exact hp

theorem installOcc_mem (fd : Int) (occ : List patch) (r : patch) (p : patch)
    (hp : p ∈ installOcc fd occ r) : p ∈ occ ∨ p = installed fd r := by
  unfold installOcc at hp
  simp only at hp
  split at hp
  · split at hp
    · exact List.mem_or_eq_of_mem_set hp
    · rcases List.mem_append.mp hp with h | h
      · exact Or.inl h
      · exact Or.inr (List.mem_singleton.mp h)
  · exact Or.inl hp

theorem foldl_installOcc_other (fd : Int) (s : Int) (j : Nat) (p : patch) (hps : p.sector = s) :
    ∀ (recs occ : List patch), (∀ r ∈ recs, r.sector ≠ s) → occ[j]? = some p →
      (recs.foldl (installOcc fd) occ)[j]? = some p := by
  intro recs
  induction recs with
  | nil => intro occ _ hp; exact hp
  | cons r rest ih =>
    intro occ hne hp
    rw [List.foldl_cons]
    apply ih _ (fun q hq => hne q (List.mem_cons_of_mem _ hq))
    apply installOcc_other fd occ r j p hp
    rw [hps]
    exact fun h => hne r (List.mem_cons_self _ _) h.symm

theorem foldl_installOcc_absent (fd : Int) (s : Int) :
    ∀ (recs occ : List patch), (∀ r ∈ recs, r.sector ≠ s) → (∀ p ∈ occ, p.sector ≠ s) →
      ∀ p ∈ recs.foldl (installOcc fd) occ, p.sector ≠ s := by
  intro recs
  induction recs with
  | nil => intro occ _ habs; exact habs
  | cons r rest ih =>
    intro occ hne habs
    rw [List.foldl_cons]
    apply ih _ (fun q hq => hne q (List.mem_cons_of_mem _ hq))
    intro p hp
    rcases installOcc_mem fd occ r p hp with h | h
    · exact habs p h
    · rw [h]; exact hne r (List.mem_cons_self _ _)

/-- The records for `s` are exactly `[r]`: the list splits around `r`. -/
theorem split_of_filter_singleton (recs : List patch) (s : Int) (r : patch)
    (h : recs.filter (holds s) = [r]) :
    ∃ pre post, recs = pre ++ r :: post ∧ (∀ x ∈ pre, x.sector ≠ s) ∧ r.sector = s ∧
      (∀ x ∈ post, x.sector ≠ s) := by
  obtain ⟨pre, post, h1, h2, h3, h4⟩ := List.filter_eq_cons_iff.mp h
  refine ⟨pre, post, h1, ?_, (holds_iff _ _).mp h3, ?_⟩
  · intro x hx
    exact (holds_false_iff _ _).mp (by simpa using h2 x hx)
  · intro x hx
    exact (holds_false_iff _ _).mp (by simpa using (List.filter_eq_nil_iff.mp h4) x hx)

/-- A batch whose only in-use record for `s` is `r`, met by a table that holds
`s` in slot `j`: the slot is replaced when `r` has the strictly greater
confidence and is left as it is otherwise. -/
theorem batch_on_present (fd : Int) (occ recs : List patch) (s : Int) (r : patch) (j : Nat)
    (p : patch) (hocc : Occ occ) (hin : ∀ x ∈ recs, x.sector ≠ 0)
    (hroom : occ.length + recs.length ≤ NPATCHES * 2)
    (hfilter : recs.filter (holds s) = [r]) (hp : occ[j]? = some p) (hps : p.sector = s) :
    (recs.foldl (installOcc fd) occ)[j]? =
      some (if r.confidence > p.confidence then installed fd r else p) := by
  obtain ⟨pre, post, rfl, hpre, hrs, hpost⟩ := split_of_filter_singleton recs s r hfilter
  rw [List.length_append, List.length_cons] at hroom
  have hA := install_loop_eq_foldl fd pre occ hocc
    (fun x hx => hin x (List.mem_append_left _ hx)) (by omega)
  have hpA := foldl_installOcc_other fd s j p hps pre occ hpre hp
  have hstep := installOcc_same fd _ hA.2.1 r j p hpA (by rw [hps, hrs])
  rw [List.foldl_append, List.foldl_cons]
  apply foldl_installOcc_other fd s j _ _ post _ hpost hstep
  split
  · exact hrs
  · exact hps

/-- A batch whose only in-use record for `s` is `r`, with positive confidence,
met by a table that does not hold `s`: afterwards one slot holds `s`, as
installed from `r`. -/
theorem batch_on_absent (fd : Int) (occ recs : List patch) (s : Int) (r : patch)
    (hfilter : recs.filter (holds s) = [r]) (habs : ∀ p ∈ occ, p.sector ≠ s)
    (hc : 0 < r.confidence) :
    ∃ j : Nat, (recs.foldl (installOcc fd) occ)[j]? = some (installed fd r) := by
  obtain ⟨pre, post, rfl, hpre, hrs, hpost⟩ := split_of_filter_singleton recs s r hfilter
  have habsA := foldl_installOcc_absent fd s pre occ hpre habs
  refine ⟨(pre.foldl (installOcc fd) occ).length, ?_⟩
  rw [List.foldl_append, List.foldl_cons,
    installOcc_absent fd _ r (fun p hp => by rw [hrs]; exact habsA p hp) hc]
  apply foldl_installOcc_other fd s (pre.foldl (installOcc fd) occ).length (installed fd r) hrs
    post _ hpost
  rw [List.getElem?_append_right (Nat.le_refl _), Nat.sub_self]
  rfl

/-- A table with occupied part `occ` holds `s ≠ 0` in slot `j` and nowhere else. -/
theorem slot_unique (occ : List patch) (hocc : Occ occ) (s : Int) (hs : s ≠ 0) (j : Nat)
    (p : patch) (hp : occ[j]? = some p) (hps : p.sector = s) (i : Nat) :
    (slotAt (tableOf occ) i).sector = s ↔ i = j := by
  obtain ⟨hj, hpj⟩ := List.getElem?_eq_some.mp hp
  constructor
  · intro h
    have hi : i < occ.length := (slot_occupied_iff occ hocc i).mp (by rw [h]; exact hs)
    rw [slotAt_occupied occ i hi] at h
    exact occ_sector_inj occ hocc i j hi hj (by rw [h, hpj, hps])
  · intro h
    rw [h, slotAt_occupied occ j hj, hpj, hps]

theorem slotAt_of_getElem (occ : List patch) (j : Nat) (p : patch) (hp : occ[j]? = some p) :
    slotAt (tableOf occ) j = p := by
  obtain ⟨hj, hpj⟩ := List.getElem?_eq_some.mp hp
  rw [slotAt_occupied occ j hj, hpj]

theorem load_batch_some (t : List patch) (fd : Int) (b t2 : List patch)
    (h : load_batch t fd b = some t2) : t2 = install_loop fd t (inUse b) := by
  by_cases hb : NPATCHES ≤ b.length
  · rw [load_batch_eq t fd b hb] at h
    exact (Option.some.inj h).symm
  · unfold load_batch at h
    rw [if_pos (by omega)] at h
    exact absurd h (by simp)

/-! ## Further lemmas on the translator, the loop and the slot scan -/

/-- Every read the translator issues is at `page * 8832 + sec * 1094 + secofs` for
some page number, with the clipped size as its length. -/
theorem pread_shape (g : Globals) (n : Nat) (offset : Int) (fd : Int) (len : Nat) (poff : Int)
    (h : lofile_read_a_little g lofile_path n offset = some (Chunk.pread fd len poff)) :
    len = clipSize n offset ∧
    ∃ page : Int, poff = page * 8832 + secOf offset * 1094 + secofsOf offset := by
  unfold lofile_read_a_little at h
  simp only [ne_eq, not_true_eq_false, if_false] at h
  split at h
  · exact absurd h (by simp)
  · split at h
    · exact absurd h (by simp)
    · split at h
      · exact absurd h (by simp)
      · split at h
        · exact absurd h (by simp)
        · split at h
          · rename_i p _
            simp only [Option.some.injEq, Chunk.pread.injEq] at h
            exact ⟨h.2.1.symm, p.pg, by rw [← h.2.2]; rfl⟩
          · rename_i e _ _ _ _
            simp only [Option.some.injEq, Chunk.pread.injEq] at h
            exact ⟨h.2.1.symm, (e.phys : Int) * 256 + (splitOf (pageOf offset)) >>> 1,
              by rw [← h.2.2]; rfl⟩

/-! ## Deinterleaving -/

/-- Line 139 on a page number `p ≥ 0`, in arithmetic. -/
theorem splitOf_arith (p : Nat) : splitOf (p : Int) = ((p / 2 + p % 2 * 256 : Nat) : Int) := by
  rw [splitOf_natCast, Nat.shiftRight_eq_div_pow, Nat.and_one_is_mod, Nat.shiftLeft_eq]

/-- Line 141 on a page number `p ≥ 0`, in arithmetic. -/
theorem channel_arith (p : Nat) :
    Int.land (splitOf (p : Int)) 1 = (((p / 2 + p % 2 * 256) % 2 : Nat) : Int) := by
  rw [splitOf_arith, land_one_natCast, Nat.and_one_is_mod]

/-- Line 142 on a page number `p ≥ 0`, in arithmetic. -/
theorem finalPage_arith (p : Nat) :
    (splitOf (p : Int)) >>> 1 = (((p / 2 + p % 2 * 256) / 2 : Nat) : Int) := by
  rw [splitOf_arith, shiftRight_one_natCast, Nat.shiftRight_eq_div_pow]

/-- The page number of an offset `≥ 0` as a natural number below 512. -/
theorem pageOf_nat (offset : Int) (ho : 0 ≤ offset) :
    ∃ p : Nat, p < 512 ∧ pageOf offset = (p : Int) ∧ (p : Int) = offset % 4194304 / 8192 := by
  refine ⟨(offset % 4194304 / 8192).toNat, ?_, ?_, ?_⟩
  · omega
  · rw [pageOf_of_nonneg offset ho]; omega
  · omega

/-! ## The two-priority scan of the specification -/

theorem findIdx_zeros (f : patch → Bool) (n : Nat) (hf : f zeroPatch = true) :
    (List.replicate n zeroPatch).findIdx f = 0 := by
  cases n with
  | zero => rfl
  | succ k => rw [List.replicate_succ, List.findIdx_cons, hf]; rfl

/-- The two-priority scan on a table with occupied part `occ`. -/
theorem findSlotSpec_tableOf (occ : List patch) (s : Int) (hocc : Occ occ) (hs : s ≠ 0) :
    findSlotSpec (tableOf occ) s = occ.findIdx (holds s) := by
  have hlen := tableOf_length occ hocc.len
  have hle := @List.findIdx_le_length _ (holds s) occ
  have hocclen := hocc.len
  unfold findSlotSpec
  simp only
  rw [List.take_of_length_le (by rw [hlen]), hlen]
  have hzs : (List.replicate (NPATCHES * 2 - occ.length) zeroPatch).findIdx (holds s)
      = NPATCHES * 2 - occ.length := by
    rw [List.findIdx_eq_length_of_false, List.length_replicate]
    intro x hx
    rw [List.eq_of_mem_replicate hx, holds_false_iff]
    exact fun h => hs h.symm
  have hfree : occ.findIdx (fun p => decide (p.sector = 0)) = occ.length := by
    rw [List.findIdx_eq_length]
    intro x hx
    simpa using hocc.inuse x hx
  have hz0 := findIdx_zeros (fun p => decide (p.sector = 0)) (NPATCHES * 2 - occ.length) rfl
  have e1 : (tableOf occ).findIdx (holds s)
      = if occ.findIdx (holds s) < occ.length then occ.findIdx (holds s) else NPATCHES * 2 := by
    unfold tableOf
    rw [List.findIdx_append, hzs]
    split
    · rfl
    · omega
  have e2 : (tableOf occ).findIdx (fun p => decide (p.sector = 0)) = occ.length := by
    unfold tableOf
    rw [List.findIdx_append, hfree, hz0, if_neg (Nat.lt_irrefl _), Nat.zero_add]
  rw [e1, e2]
  by_cases hfound : occ.findIdx (holds s) < occ.length
  · rw [if_pos hfound, if_pos (by omega)]
  · rw [if_neg hfound, if_neg (Nat.lt_irrefl _)]
    by_cases hroom : occ.length < NPATCHES * 2
    · rw [if_pos hroom]; omega
    · rw [if_neg hroom]; omega

/-! ## Reads that return less than asked -/

/-- Storing no byte leaves the buffer as it was. -/
theorem store_nil (m : Mem) (pos : Int) : store m pos [] = m := by
  funext i
  unfold store
  rw [if_neg (by simp only [List.length_nil]; omega)]

/-- An iteration whose physical read stores no byte ends the loop. -/
theorem loop_step_zero_read (g : Globals) (dev : Dev) (path : String) (fuel : Nat)
    (st : ReadState) (fd : Int) (n : Nat) (off : Int) (bytes : List Nat) (h0 : st.size ≠ 0)
    (htr : lofile_read_a_little g path st.size st.offset = some (Chunk.pread fd n off))
    (hdev : dev.pread64 fd n off = PreadResult.data bytes) (hlen : (bytes.take n).length = 0) :
    lofile_read_loop g dev path (fuel + 1) st =
      Except.ok { st with mem := store st.mem st.buf (bytes.take n)
                          trace := st.trace ++ [⟨fd, n, off⟩] } := by
  rw [lofile_read_loop, if_neg h0, htr]
  simp only [runChunk, hdev, hlen]
  rfl

theorem runChunk_data (dev : Dev) (fd : Int) (n : Nat) (off : Int) (buf : Int) (mem : Mem)
    (t : List PhysRead) (bytes : List Nat) (hn : n ≤ 1024)
    (hb : dev.pread64 fd n off = PreadResult.data bytes) :
    runChunk dev (Chunk.pread fd n off) buf mem t
      = ((((bytes.take n).length : Nat) : Int), store mem buf (bytes.take n),
          t ++ [⟨fd, n, off⟩]) := by
  have hk : (bytes.take n).length ≤ n := List.length_take_le _ _
  simp only [runChunk, hb]
  rw [wrapI32_of_range _ (by omega) (by omega)]

/-! ## Negative results of `lofile_read_a_little` -/

/-- On a path other than `lofile_path` every iteration adds 2 to `size`: an odd
`size` never becomes zero and the loop does not end. -/
theorem loop_other_path_odd (g : Globals) (dev : Dev) (path : String)
    (hpath : path ≠ lofile_path) :
    ∀ (fuel : Nat) (st : ReadState), st.size % 2 = 1 →
      lofile_read_loop g dev path fuel st = Except.error Fault.outOfFuel := by
  intro fuel
  induction fuel with
  | zero =>
    intro st hodd
    rw [lofile_read_loop, if_neg (by omega)]
  | succ fuel ih =>
    intro st hodd
    have htr : lofile_read_a_little g path st.size st.offset = some Chunk.enoent := by
      unfold lofile_read_a_little
      rw [if_pos hpath]
    have hrv : (-ENOENT : Int) ≠ 0 := by decide
    rw [lofile_read_loop, if_neg (by omega), htr]
    simp only [runChunk]
    rw [if_neg hrv]
    apply ih
    simp only [ENOENT, wrapU64]
    omega

/-! ## Requests on a device that does not fail -/

/-- When no physical read fails, the loop ends within `size` iterations, the count
`retsz` grows by at most the requested size and the output cursor does not
move backwards. -/
theorem read_loop_without_failures (g : Globals) (dev : Dev)
    (hsz : IsInt32 g._tabsz) (htab : (g._tab.length : Int) = g._tabsz)
    (hdev : ∀ fd n off, dev.pread64 fd n off ≠ PreadResult.error) :
    ∀ (fuel : Nat) (st : ReadState), st.size ≤ fuel → 0 ≤ st.offset →
      st.retsz + st.size < 9223372036854775808 →
      ∃ st', lofile_read_loop g dev lofile_path fuel st = Except.ok st' ∧
        st.retsz ≤ st'.retsz ∧ st'.retsz ≤ st.retsz + st.size ∧ st.buf ≤ st'.buf := by
  intro fuel
  induction fuel with
  | zero =>
    intro st hf _ _
    exact ⟨st, loop_done g dev _ 0 st (by omega), Nat.le_refl _, by omega, Int.le_refl _⟩
  | succ fuel ih =>
    intro st hf ho hret
    by_cases h0 : st.size = 0
    · exact ⟨st, loop_done g dev _ _ st h0, Nat.le_refl _, by omega, Int.le_refl _⟩
    · by_cases hlt : st.offset < totalSize g
      · obtain ⟨hc1, hc2, _, hc4⟩ := clipSize_bounds st.size st.offset ho
          (Nat.pos_of_ne_zero h0) (by clear ih; omega)
        -- after a chunk of `k ≥ 1` bytes the rest of the request is served by induction
        have hnext : ∀ (k : Nat) (m : Mem) (t : List PhysRead), 1 ≤ k → k ≤ st.size →
            lofile_read_loop g dev lofile_path (fuel + 1) st =
              lofile_read_loop g dev lofile_path fuel
                { size := st.size - k, buf := st.buf + k, retsz := st.retsz + k,
                  offset := st.offset + k, mem := m, trace := t } →
            ∃ st', lofile_read_loop g dev lofile_path (fuel + 1) st = Except.ok st' ∧
              st.retsz ≤ st'.retsz ∧ st'.retsz ≤ st.retsz + st.size ∧ st.buf ≤ st'.buf := by
          intro k m t hk1 hk2 hstep
          obtain ⟨st', hrun, h1, h2, h3⟩ := ih
            { size := st.size - k, buf := st.buf + k, retsz := st.retsz + k,
              offset := st.offset + k, mem := m, trace := t }
            (by simp only; clear ih; omega) (by simp only; clear ih; omega)
            (by simp only; clear ih; omega)
          simp only at h1 h2 h3
          exact ⟨st', by rw [hstep]; exact hrun, by clear ih; omega, by clear ih; omega,
            by clear ih; omega⟩
        rcases translate_in_range g st.size st.offset hsz htab ho hlt with htr | ⟨fd, off, htr⟩
        · exact hnext _ _ _ hc1 hc2 (loop_step_advance g dev lofile_path fuel st _ _ _ _ htr
            (runChunk_zero dev _ st.buf st.mem st.trace hc4) hc1 hc2 (by clear ih; omega))
        · cases hres : dev.pread64 fd (clipSize st.size st.offset) off with
          | error => exact absurd hres (hdev _ _ _)
          | data bytes =>
            have hk : (bytes.take (clipSize st.size st.offset)).length
                ≤ clipSize st.size st.offset := List.length_take_le _ _
            by_cases hz : (bytes.take (clipSize st.size st.offset)).length = 0
            · exact ⟨_, loop_step_zero_read g dev lofile_path fuel st fd _ off bytes h0 htr
                hres hz, Nat.le_refl _, by simp only; omega, Int.le_refl _⟩
            · exact hnext _ _ _ (Nat.pos_of_ne_zero hz) (by omega)
                (loop_step_advance g dev lofile_path fuel st _ _ _ _ htr
                  (runChunk_data dev fd _ off st.buf st.mem st.trace bytes hc4 hres)
                  (Nat.pos_of_ne_zero hz) (by omega) (by clear ih; omega))
      · exact ⟨st, loop_step_eof g dev fuel st h0 (by omega), Nat.le_refl _, by omega,
          Int.le_refl _⟩

/-- When no physical read fails, a request of fewer than `2^31` bytes at an offset
`≥ 0` returns a count between 0 and the requested size. -/
theorem read_without_failures_bounded (g : Globals) (dev : Dev) (size : Nat) (offset : Int)
    (fuel : Nat) (hsz : IsInt32 g._tabsz) (htab : (g._tab.length : Int) = g._tabsz)
    (hdev : ∀ fd n off, dev.pread64 fd n off ≠ PreadResult.error)
    (ho : 0 ≤ offset) (hsize : size < 2147483648) (hfuel : size ≤ fuel) :
    ∃ r, lofile_read g dev lofile_path size offset fuel = Except.ok r ∧
      0 ≤ r.ret ∧ r.ret ≤ size := by
  obtain ⟨st', hrun, _, h2, _⟩ := read_loop_without_failures g dev hsz htab hdev fuel
    { size := size, buf := 0, retsz := 0, offset := offset, mem := emptyMem, trace := [] }
    hfuel ho (by simp only; omega)
  simp only at h2
  refine ⟨{ ret := wrapI32 st'.retsz, mem := st'.mem, trace := st'.trace }, ?_, ?_⟩
  · simp only [lofile_read, hrun]
  · simp only
    rw [wrapI32_of_range _ (by omega) (by omega)]
    omega

/-! ## Uniqueness of the physical position -/

theorem deinterleave_range (p : Nat) (hp : p < 512) :
    (p / 2 + p % 2 * 256) % 2 ≤ 1 ∧ (p / 2 + p % 2 * 256) / 2 ≤ 255 := by
  omega

theorem deinterleave_inj (p q : Nat) (hp : p < 512) (hq : q < 512)
    (h1 : (p / 2 + p % 2 * 256) % 2 = (q / 2 + q % 2 * 256) % 2)
    (h2 : (p / 2 + p % 2 * 256) / 2 = (q / 2 + q % 2 * 256) / 2) : p = q := by
  omega

/-- A physical offset determines its page and the position inside the page. -/
theorem page_part_unique (a1 a2 r1 r2 : Int) (h : a1 * 8832 + r1 = a2 * 8832 + r2)
    (h1 : 0 ≤ r1) (h1b : r1 < 8832) (h2 : 0 ≤ r2) (h2b : r2 < 8832) : a1 = a2 ∧ r1 = r2 := by
  omega

/-- The position inside a page determines the sector and the position inside it. -/
theorem sector_part_unique (s1 s2 o1 o2 : Int) (h : s1 * 1094 + o1 = s2 * 1094 + o2)
    (h1 : 0 ≤ o1) (h1b : o1 < 1024) (h2 : 0 ≤ o2) (h2b : o2 < 1024) : s1 = s2 ∧ o1 = o2 := by
  omega

theorem page_of_phys (a r : Int) (h1 : 0 ≤ r) (h1b : r < 8832) : (a * 8832 + r) / 8832 = a := by
  omega

/-- Block, page, sector and position inside the sector determine the offset. -/
theorem offset_unique (o1 o2 b : Int) (hlo1 : b * 4194304 ≤ o1) (hhi1 : o1 < (b + 1) * 4194304)
    (hlo2 : b * 4194304 ≤ o2) (hhi2 : o2 < (b + 1) * 4194304)
    (hpage : o1 % 4194304 / 8192 = o2 % 4194304 / 8192)
    (hsec : o1 % 8192 / 1024 = o2 % 8192 / 1024) (hofs : o1 % 1024 = o2 % 1024) : o1 = o2 := by
  omega

theorem in_page_bounds (o : Int) :
    0 ≤ o % 8192 / 1024 ∧ 0 ≤ o % 1024 ∧ o % 1024 < 1024 ∧
    0 ≤ o % 8192 / 1024 * 1094 + o % 1024 ∧ o % 8192 / 1024 * 1094 + o % 1024 < 8832 := by
  omega

/-- The read issued in a mapped block when no scanned slot matches, with the
indices in arithmetic: `p` is the page number of the offset. -/
theorem unpatched_phys (g : Globals) (b : Nat) (e : fwdtab) (n : Nat) (o : Int) (fd : Int)
    (L : Nat) (P : Int) (hsz : IsInt32 g._tabsz) (hb : (b : Int) < g._tabsz)
    (he : g._tab[b]? = some e) (hc : 0 ≤ e.confidence) (hlo : (b : Int) * 4194304 ≤ o)
    (hhi : o < ((b : Int) + 1) * 4194304)
    (hno : (g.patches.take NPATCHES).find? (patchMatches o) = none)
    (h : lofile_read_a_little g lofile_path n o = some (Chunk.pread fd L P)) :
    ∃ p : Nat, p < 512 ∧ (p : Int) = o % 4194304 / 8192 ∧
      csOf o = (((p / 2 + p % 2 * 256) % 2 : Nat) : Int) ∧
      P = ((e.phys : Int) * 256 + (((p / 2 + p % 2 * 256) / 2 : Nat) : Int)) * 8832
        + (o % 8192 / 1024 * 1094 + o % 1024) := by
  have ho : 0 ≤ o := by omega
  rw [translate_unpatched g b e n o hsz hb he hc hlo hhi hno] at h
  simp only [Option.some.injEq, Chunk.pread.injEq] at h
  obtain ⟨_, _, hP⟩ := h
  obtain ⟨p, hp, hpg, hpe⟩ := pageOf_nat o ho
  have hB : BLOCKSZ / (2 : Int) = 256 := by decide
  refine ⟨p, hp, hpe, ?_, ?_⟩
  · unfold csOf; rw [hpg, channel_arith]
  · have hfp : finalPageOf o = (((p / 2 + p % 2 * 256) / 2 : Nat) : Int) := by
      unfold finalPageOf; rw [hpg, finalPage_arith]
    rw [hfp, hB, secOf_of_nonneg o ho, secofsOf_of_nonneg o ho] at hP
    rw [← hP]
    simp only [PAGESZ, SECBLOCK, ECCSZ]
    rw [Int.add_assoc]
    rfl

/-- Unpatched reads of one block: channel and physical offset determine the
offset, and the physical offset lies in the 256 pages of the physical block. -/
theorem unpatched_injective (g : Globals) (b : Nat) (e : fwdtab) (n1 n2 : Nat) (o1 o2 : Int)
    (fd1 fd2 : Int) (L1 L2 : Nat) (P1 P2 : Int)
    (hsz : IsInt32 g._tabsz) (hb : (b : Int) < g._tabsz) (he : g._tab[b]? = some e)
    (hc : 0 ≤ e.confidence)
    (hlo1 : (b : Int) * 4194304 ≤ o1) (hhi1 : o1 < ((b : Int) + 1) * 4194304)
    (hlo2 : (b : Int) * 4194304 ≤ o2) (hhi2 : o2 < ((b : Int) + 1) * 4194304)
    (hno1 : (g.patches.take NPATCHES).find? (patchMatches o1) = none)
    (hno2 : (g.patches.take NPATCHES).find? (patchMatches o2) = none)
    (h1 : lofile_read_a_little g lofile_path n1 o1 = some (Chunk.pread fd1 L1 P1))
    (h2 : lofile_read_a_little g lofile_path n2 o2 = some (Chunk.pread fd2 L2 P2)) :
    (csOf o1 = csOf o2 → P1 = P2 → o1 = o2) ∧
    (e.phys : Int) * 256 ≤ P1 / 8832 ∧ P1 / 8832 ≤ (e.phys : Int) * 256 + 255 := by
  obtain ⟨p1, hp1, hpe1, hcs1, hP1⟩ := unpatched_phys g b e n1 o1 fd1 L1 P1 hsz hb he hc hlo1 hhi1
    hno1 h1
  obtain ⟨p2, hp2, hpe2, hcs2, hP2⟩ := unpatched_phys g b e n2 o2 fd2 L2 P2 hsz hb he hc hlo2 hhi2
    hno2 h2
  obtain ⟨hs1, ho1, ho1b, hr1, hr1b⟩ := in_page_bounds o1
  obtain ⟨hs2, ho2, ho2b, hr2, hr2b⟩ := in_page_bounds o2
  have hrange := (deinterleave_range p1 hp1).2
  refine ⟨?_, ?_, ?_⟩
  · intro hcs hP
    rw [hcs1, hcs2] at hcs
    rw [hP1, hP2] at hP
    obtain ⟨hpage, hin⟩ := page_part_unique _ _ _ _ hP hr1 hr1b hr2 hr2b
    obtain ⟨hsec, hofs⟩ := sector_part_unique _ _ _ _ hin ho1 ho1b ho2 ho2b
    have hpp : p1 = p2 := deinterleave_inj p1 p2 hp1 hp2 (by exact_mod_cast hcs)
      (by have := hpage; omega)
    exact offset_unique o1 o2 b hlo1 hhi1 hlo2 hhi2 (by rw [← hpe1, ← hpe2, hpp]) hsec hofs
  · rw [hP1, page_of_phys _ _ hr1 hr1b]
    omega
  · rw [hP1, page_of_phys _ _ hr1 hr1b]
    omega

/-! ## Physical reads at non-negative offsets -/

/-- For every physical read the translator issues (patch or channel) at a
non-negative offset of the exposed file, with physical offset `P` and
length `L ≥ 1`: `P mod 8832 = s * 1094 + o` with `0 ≤ s ≤ 7`, `0 ≤ o` and
`o + L ≤ 1024`, so the bytes `[P, P + L)` lie in one 8832-byte page, inside the
1024 data bytes of one 1094-byte sector of that page (the requested length `n`
is the size of a buffer, hence below `2^63`). -/
theorem data_bytes_only_of_nonneg (g : Globals) (n : Nat) (offset : Int) (fd : Int) (L : Nat)
    (P : Int) (ho : 0 ≤ offset) (hn : (n : Int) < 9223372036854775808)
    (h : lofile_read_a_little g lofile_path n offset = some (Chunk.pread fd L P))
    (hL : 1 ≤ L) :
    ∃ s o : Int, P % 8832 = s * 1094 + o ∧ 0 ≤ s ∧ s ≤ 7 ∧ 0 ≤ o ∧ o + L ≤ 1024 ∧
      P / 8832 = (P + L - 1) / 8832 := by
  obtain ⟨hlen, page, hP⟩ := pread_shape g n offset fd L P h
  have hclip := clipSize_of_nonneg n offset ho hn
  rw [secOf_of_nonneg offset ho, secofsOf_of_nonneg offset ho] at hP
  have hs : 0 ≤ offset % 8192 / 1024 ∧ offset % 8192 / 1024 ≤ 7 := by omega
  have ho2 : 0 ≤ offset % 1024 ∧ offset % 1024 + L ≤ 1024 := by omega
  have hr : 0 ≤ offset % 8192 / 1024 * 1094 + offset % 1024 ∧
      offset % 8192 / 1024 * 1094 + offset % 1024 + L ≤ 8832 := by omega
  have hpage : P % 8832 = offset % 8192 / 1024 * 1094 + offset % 1024 ∧
      P / 8832 = (P + L - 1) / 8832 := by
    clear h hclip hlen hs ho2
    rw [Int.add_assoc] at hP
    generalize offset % 8192 / 1024 * 1094 + offset % 1024 = r at hP hr ⊢
    omega
  exact ⟨offset % 8192 / 1024, offset % 1024, hpage.1, hs.1, hs.2, ho2.1, ho2.2, hpage.2⟩

/-- The read issued for offset 17414 of the sample file. -/
theorem data_bytes_only_of_nonneg_sample :
    ∃ s o : Int, (4523084 : Int) % 8832 = s * 1094 + o ∧ 0 ≤ s ∧ s ≤ 7 ∧ 0 ≤ o ∧
      o + (1018 : Nat) ≤ 1024 ∧ (4523084 : Int) / 8832 = (4523084 + (1018 : Nat) - 1) / 8832 :=
  data_bytes_only_of_nonneg sampleGlobals 5000 17414 11 1018 4523084 (by norm_num) (by norm_num)
    (by decide) (by norm_num)

/-! # The claims -/

/-- Claim C1: a read request on the exposed file that lies inside the span of a
logical block `b < blockCount` whose forward-map entry has negative confidence
returns exactly `size`, every byte of the returned range is zero, and no
physical read is issued (whatever the patch table and the device). -/
theorem unmapped_block_reads_zero (g : Globals) (dev : Dev) (b : Nat) (e : fwdtab)
    (size : Nat) (offset : Int) (fuel : Nat)
    (hsz : IsInt32 g._tabsz) (hb : (b : Int) < g._tabsz) (he : g._tab[b]? = some e)
    (hc : e.confidence < 0) (hlo : (b : Int) * 4194304 ≤ offset)
    (hhi : offset + size ≤ ((b : Int) + 1) * 4194304) (hfuel : size ≤ fuel) :
    ∃ r, lofile_read g dev lofile_path size offset fuel = Except.ok r ∧
      r.ret = size ∧ (∀ i : Int, 0 ≤ i → i < size → r.mem i = some 0) ∧ r.trace = [] := by
  have hsmall : size ≤ 4194304 := by omega
  obtain ⟨st', hrun, hr, ht, hz, _⟩ := read_loop_unmapped g dev b e hsz hb he hc fuel
    { size := size, buf := 0, retsz := 0, offset := offset, mem := emptyMem, trace := [] }
    hfuel hlo hhi (by simp only; omega)
  simp only at hr ht hz
  refine ⟨{ ret := wrapI32 st'.retsz, mem := st'.mem, trace := st'.trace }, ?_, ?_, ?_, ht⟩
  · simp only [lofile_read, hrun]
  · simp only
    rw [hr, Nat.zero_add]
    exact wrapI32_of_range _ (by omega) (by omega)
  · intro i h1 h2
    exact hz i h1 (by omega)

/-- Witness for C1: a 3000-byte request inside unmapped block 1 of the sample globals. -/
theorem unmapped_block_reads_zero_witness :
    IsInt32 sampleGlobals._tabsz ∧ sampleGlobals._tab[1]? = some ⟨7, -1⟩ ∧
    ∃ r, lofile_read sampleGlobals fullDev lofile_path 3000 4194404 3000 = Except.ok r ∧
      r.ret = (3000 : Nat) ∧ (∀ i : Int, 0 ≤ i → i < (3000 : Nat) → r.mem i = some 0) ∧
      r.trace = [] :=
  ⟨by unfold IsInt32 sampleGlobals; norm_num, rfl,
    unmapped_block_reads_zero sampleGlobals fullDev 1 ⟨7, -1⟩ 3000 4194404 3000
      (by unfold IsInt32 sampleGlobals; norm_num) (by unfold sampleGlobals; norm_num) rfl
      (by norm_num) (by norm_num) (by norm_num) (by norm_num)⟩

/-- Claim C2: with `totalSize = blockCount * 1024 * 8 * 512`, and assuming that
every physical read issued by the request returns the full length asked of it
(the reads of the translator called at `pos`, the offset of the request or a
later multiple of 1024, with the rest `sz = offset + size - pos ≥ 1` of the
request: the loop makes no other call), `lofile_read` on the exposed file, for
`offset ≥ 0` and `size < 2^31`, returns `min size (totalSize - offset)` when
`offset < totalSize` and `0` otherwise. -/
theorem read_length_clamped_to_total (g : Globals) (dev : Dev) (size : Nat) (offset : Int)
    (fuel : Nat) (hsz : IsInt32 g._tabsz) (htab : (g._tab.length : Int) = g._tabsz)
    (hdev : ∀ (pos : Int) (sz : Nat) (fd : Int) (n : Nat) (off : Int),
      offset ≤ pos → (pos = offset ∨ pos % 1024 = 0) → 1 ≤ sz → pos + sz = offset + size →
      lofile_read_a_little g lofile_path sz pos = some (Chunk.pread fd n off) →
      ∃ bytes, dev.pread64 fd n off = PreadResult.data bytes ∧ n ≤ bytes.length)
    (ho : 0 ≤ offset) (hsize : size < 2147483648) (hfuel : size ≤ fuel) :
    totalSize g = g._tabsz * 1024 * 8 * 512 ∧
    ∃ r, lofile_read g dev lofile_path size offset fuel = Except.ok r ∧
      r.ret = (if offset < totalSize g then min (size : Int) (totalSize g - offset) else 0) := by
  refine ⟨rfl, ?_⟩
  obtain ⟨st', hrun, hr⟩ := read_loop_served g dev offset (offset + size) hsz htab hdev fuel
    { size := size, buf := 0, retsz := 0, offset := offset, mem := emptyMem, trace := [] }
    hfuel ho (Int.le_refl _) (fun _ => Or.inl rfl) rfl (by simp only; omega)
  simp only at hr
  refine ⟨{ ret := wrapI32 st'.retsz, mem := st'.mem, trace := st'.trace }, ?_, ?_⟩
  · simp only [lofile_read, hrun]
  · simp only
    have h0 : ((0 : Nat) : Int) = 0 := rfl
    rw [h0, Int.zero_add] at hr
    rw [← hr]
    apply wrapI32_of_range
    · omega
    · rw [hr]; split <;> omega

/-- Witness for C2: 5000 bytes asked 2000 bytes before the end of a file of one
mapped block, on a device that serves at most 1024 bytes per read; the request
issues two physical reads (976 and 1024 bytes) and returns 2000. -/
theorem read_length_clamped_to_total_witness :
    IsInt32 arbitratedGlobals._tabsz ∧
    (arbitratedGlobals._tab.length : Int) = arbitratedGlobals._tabsz ∧
    outcome (lofile_read arbitratedGlobals cappedDev lofile_path 5000 4192304 5000)
      = some (2000, [⟨11, 976, 6780756⟩, ⟨11, 1024, 6781802⟩]) ∧
    totalSize arbitratedGlobals = arbitratedGlobals._tabsz * 1024 * 8 * 512 ∧
    ∃ r, lofile_read arbitratedGlobals cappedDev lofile_path 5000 4192304 5000 = Except.ok r ∧
      r.ret = (if (4192304 : Int) < totalSize arbitratedGlobals
        then min ((5000 : Nat) : Int) (totalSize arbitratedGlobals - 4192304) else 0) :=
  ⟨by unfold IsInt32 arbitratedGlobals; norm_num, rfl, by decide!,
    read_length_clamped_to_total arbitratedGlobals cappedDev 5000 4192304 5000
      (by unfold IsInt32 arbitratedGlobals; norm_num) rfl
      (fun pos sz fd n off hlo _ h1 he htr => by
        have hn : n ≤ 1024 := by
          have hc := clipSize_bounds sz pos (by omega) h1 (by omega)
          have := (pread_shape arbitratedGlobals sz pos fd n off htr)
          omega
        exact ⟨List.replicate n 7, by simp [cappedDev, hn], by simp⟩)
      (by norm_num) (by norm_num) (by norm_num)⟩

/-- Claim C3, counterexample.  First input: both batches have one in-use record
for sector 17, with confidences 5 and 9; after both loads slot 1 is the only
slot for sector 17 and holds the record of batch 2 (file 4).  Offset 8192 of
mapped block 0 is covered by sector 17 (`17 / 16 = 8192 / 8192`), but the read
is sourced from file 3, the file of slot 0 (sector 16 of batch 1), not from
file 4.  Second input: batch 1 has an in-use record for sector 17 with
confidence `c1 = 1 > 0` (and another one with confidence 10), batch 2 has one
with `c2 = 5 > c1`; the slot for sector 17 does not hold the record of
batch 2. -/
theorem higher_confidence_patch_shadowed :
    (load_batches emptyPatches [(3, shadowBatch1), (4, shadowBatch2)]
      = some shadowGlobals.patches ∧
    (inUse shadowBatch1).filter (holds 17) = [⟨17, 2, 5, 0⟩] ∧
    (inUse shadowBatch2).filter (holds 17) = [⟨17, 9, 9, 0⟩] ∧
    (∀ i, i < NPATCHES * 2 → ((slotAt shadowGlobals.patches i).sector = 17 ↔ i = 1)) ∧
    slotAt shadowGlobals.patches 1 = installed 4 ⟨17, 9, 9, 0⟩ ∧
    patchMatches 8192 (slotAt shadowGlobals.patches 1) = true ∧
    shadowGlobals._tab[0]? = some ⟨2, 5⟩ ∧
    lofile_read_a_little shadowGlobals lofile_path 1024 8192
      = some (Chunk.pread 3 1024 8832) ∧
    (3 : Int) ≠ (slotAt shadowGlobals.patches 1).fd) ∧
    (load_batches emptyPatches [(3, dupBatch1), (4, dupBatch2)] = some dupTable ∧
    (⟨17, 1, 1, 0⟩ : patch) ∈ inUse dupBatch1 ∧ (⟨17, 3, 5, 0⟩ : patch) ∈ inUse dupBatch2 ∧
    (∀ i, i < NPATCHES * 2 → ((slotAt dupTable i).sector = 17 ↔ i = 0)) ∧
    slotAt dupTable 0 ≠ installed 4 ⟨17, 3, 5, 0⟩) := by
  refine ⟨⟨by decide!, by decide!, by decide!, by decide!, by decide!, by decide!, rfl,
    by decide!, by decide!⟩, by decide!, by decide!, by decide!, by decide!, by decide!⟩

/-- Claim C3, amended: starting from the empty table, let `r1` (confidence
`> 0`) be the only in-use record of batch 1 for sector `s` and `r2` the only
in-use record of batch 2 for `s`.  After both loads exactly one slot `j` holds
`s`, and `j < NPATCHES`; batch 1 installed `r1` there; the slot holds the page,
confidence and file of batch 2 if `r2.confidence > r1.confidence` and is left
as batch 1 installed it otherwise.  A read at an offset of a mapped block that
is covered by `s` is sourced from the file of that slot, at the slot's page,
provided no lower slot passes the test of line 128 at that offset (the first
matching slot in scan order wins). -/
theorem confidence_arbitration (b1 b2 : List patch) (fd1 fd2 s : Int) (r1 r2 : patch)
    (t1 t2 : List patch)
    (h1 : load_batch emptyPatches fd1 b1 = some t1) (h2 : load_batch t1 fd2 b2 = some t2)
    (hr1 : (inUse b1).filter (holds s) = [r1]) (hc1 : 0 < r1.confidence)
    (hr2 : (inUse b2).filter (holds s) = [r2]) :
    ∃ j, j < NPATCHES ∧
      (∀ i, i < NPATCHES * 2 → ((slotAt t2 i).sector = s ↔ i = j)) ∧
      slotAt t1 j = installed fd1 r1 ∧
      (r2.confidence > r1.confidence → slotAt t2 j = installed fd2 r2) ∧
      (r2.confidence ≤ r1.confidence → slotAt t2 j = slotAt t1 j) ∧
      ∀ (g : Globals) (size : Nat) (offset : Int) (b : Nat) (e : fwdtab),
        g.patches = t2 → IsInt32 g._tabsz → (b : Int) < g._tabsz → g._tab[b]? = some e →
        0 ≤ e.confidence → (b : Int) * 4194304 ≤ offset → offset < ((b : Int) + 1) * 4194304 →
        Int.tdiv s 16 = Int.tdiv offset 8192 →
        (∀ i, i < j → patchMatches offset (slotAt t2 i) = false) →
        lofile_read_a_little g lofile_path size offset =
          some (Chunk.pread (slotAt t2 j).fd (clipSize size offset)
            ((slotAt t2 j).pg * 8832 + offset % 8192 / 1024 * 1094 + offset % 1024)) := by
  -- the two loads as folds over the in-use records
  have e1 := load_batch_some _ _ _ _ h1
  have e2 := load_batch_some _ _ _ _ h2
  have hlen1 := inUse_length_le b1
  have hlen2 := inUse_length_le b2
  have hN : NPATCHES = 256 := rfl
  have hA := install_loop_eq_foldl fd1 (inUse b1) [] Occ_nil (inUse_sector_ne_zero b1)
    (by rw [List.length_nil]; omega)
  rw [tableOf_nil] at hA
  rw [hA.1] at e1
  have hB := install_loop_eq_foldl fd2 (inUse b2) _ hA.2.1 (inUse_sector_ne_zero b2)
    (by have := hA.2.2.1; rw [List.length_nil] at this; omega)
  rw [e1, hB.1] at e2
  -- the sector and its slot
  have hr1mem : r1 ∈ (inUse b1).filter (holds s) := by rw [hr1]; exact List.mem_singleton.mpr rfl
  have hr2mem : r2 ∈ (inUse b2).filter (holds s) := by rw [hr2]; exact List.mem_singleton.mpr rfl
  have hs1 : r1.sector = s := (holds_iff _ _).mp (List.mem_filter.mp hr1mem).2
  have hs2 : r2.sector = s := (holds_iff _ _).mp (List.mem_filter.mp hr2mem).2
  have hs0 : s ≠ 0 := by
    rw [← hs1]; exact inUse_sector_ne_zero b1 r1 (List.mem_filter.mp hr1mem).1
  obtain ⟨j, hj⟩ := batch_on_absent fd1 [] (inUse b1) s r1 hr1
    (fun _ h => absurd h (List.not_mem_nil _)) hc1
  have hjlt : j < ((inUse b1).foldl (installOcc fd1) []).length :=
    (List.getElem?_eq_some.mp hj).1
  have hj2 := batch_on_present fd2 _ (inUse b2) s r2 j _ hA.2.1 (inUse_sector_ne_zero b2)
    (by have := hA.2.2.1; rw [List.length_nil] at this; omega) hr2 hj hs1
  have hsec2 : (if r2.confidence > (installed fd1 r1).confidence then installed fd2 r2
      else installed fd1 r1).sector = s := by
    split
    · exact hs2
    · exact hs1
  have hslot1 : slotAt t1 j = installed fd1 r1 := by rw [e1]; exact slotAt_of_getElem _ _ _ hj
  have hslot2 : slotAt t2 j = (if r2.confidence > (installed fd1 r1).confidence
      then installed fd2 r2 else installed fd1 r1) := by
    rw [e2]; exact slotAt_of_getElem _ _ _ hj2
  refine ⟨j, by have := hA.2.2.1; rw [List.length_nil] at this; omega, ?_, hslot1, ?_, ?_, ?_⟩
  · intro i _
    rw [e2]
    exact slot_unique _ hB.2.1 s hs0 j _ hj2 hsec2 i
  · intro hgt
    rw [hslot2]
    exact if_pos hgt
  · intro hle
    rw [hslot2, hslot1]
    exact if_neg (not_lt.mpr hle)
  · intro g size offset b e hg hsz hb he hc hlo hhi hcov hno
    have hm : patchMatches offset (slotAt g.patches j) = true := by
      rw [hg]
      unfold patchMatches
      rw [hslot2, hsec2]
      simp only [Bool.and_eq_true, decide_eq_true_eq]
      exact ⟨hs0, hcov⟩
    have := patched_translation_scanned g b e size offset j hsz hb he hc hlo hhi
      (by have := hA.2.2.1; rw [List.length_nil] at this; omega) hm (by rw [hg]; exact hno)
    rw [hg] at this
    exact this

/-- Witness for C3 (amended): the two sample batches, both for sector 17 alone;
the record of batch 2 wins and the read of offset 8192 is sourced from its file. -/
theorem confidence_arbitration_witness :
    slotAt arbitratedGlobals.patches 0 = installed 4 ⟨17, 4, 9, 0⟩ ∧
    lofile_read_a_little arbitratedGlobals lofile_path 1024 8192 =
      some (Chunk.pread (slotAt arbitratedGlobals.patches 0).fd (clipSize 1024 8192)
        ((slotAt arbitratedGlobals.patches 0).pg * 8832 + 8192 % 8192 / 1024 * 1094
          + 8192 % 1024)) := by
  obtain ⟨j, _, huniq, _, hnew, _, hread⟩ :=
    confidence_arbitration sampleBatch1 sampleBatch2 3 4 17 ⟨17, 3, 5, 0⟩ ⟨17, 4, 9, 0⟩
      (⟨17, 3, 5, 3⟩ :: List.replicate 511 zeroPatch) arbitratedGlobals.patches
      (by decide!) (by decide!) (by decide!) (by decide) (by decide!)
  have hj0 : 0 = j := (huniq 0 (by decide)).mp (by decide!)
  subst hj0
  exact ⟨hnew (by decide),
    hread arbitratedGlobals 1024 8192 0 ⟨2, 5⟩ rfl (by unfold IsInt32 arbitratedGlobals; norm_num)
      (by unfold arbitratedGlobals; norm_num) rfl (by decide) (by norm_num) (by norm_num)
      (by decide) (fun i hi => absurd hi (Nat.not_lt_zero _))⟩

/-- Claim C4, counterexample: with `ForwardMap[0] = {physicalBlock = 2,
confidence = 5}` and no patch, the translator called with offset 0 and length
1024 does not read at physical offset 4,522,496: it reads 1024 bytes of the
channel-0 file at `(2 * 256 + 0) * 8832 = 4,521,984`. -/
theorem worked_example_offset_refuted :
    sampleGlobals._tab[0]? = some ⟨2, 5⟩ ∧
    (∀ p ∈ sampleGlobals.patches, patchMatches 0 p = false) ∧
    lofile_read_a_little sampleGlobals lofile_path 1024 0
      ≠ some (Chunk.pread sampleGlobals._fd0 1024 4522496) ∧
    lofile_read_a_little sampleGlobals lofile_path 1024 0
      = some (Chunk.pread sampleGlobals._fd0 1024 4521984) := by
  refine ⟨rfl, no_match_emptyPatches 0, ?_, ?_⟩ <;> decide

/-- Claim C4, amended: with `ForwardMap[0] = {physicalBlock = 2, confidence = 5}`
and no matching patch, the translator called with offset 0 and length 1024
issues one read of length 1024 against the channel-0 file at physical offset
4,521,984. -/
theorem worked_example (g : Globals) (hsz : IsInt32 g._tabsz) (hpos : 0 < g._tabsz)
    (he : g._tab[0]? = some ⟨2, 5⟩) (hno : ∀ p ∈ g.patches, patchMatches 0 p = false) :
    lofile_read_a_little g lofile_path 1024 0 = some (Chunk.pread g._fd0 1024 4521984) := by
  rw [translate_unpatched g 0 ⟨2, 5⟩ 1024 0 hsz (by exact_mod_cast hpos) he (by decide)
    (by norm_num) (by norm_num) (find_take_none _ _ _ hno)]
  have h1 : csOf 0 = 0 := by decide
  have h2 : clipSize 1024 0 = 1024 := by decide
  have h3 : finalPageOf 0 = 0 := by decide
  have h4 : secOf 0 = 0 := by decide
  have h5 : secofsOf 0 = 0 := by decide
  rw [h1, h2, h3, h4, h5]
  rfl

/-- Witness for C4 (amended): the sample globals. -/
theorem worked_example_witness :
    lofile_read_a_little sampleGlobals lofile_path 1024 0
      = some (Chunk.pread sampleGlobals._fd0 1024 4521984) :=
  worked_example sampleGlobals (by unfold IsInt32 sampleGlobals; norm_num)
    (by unfold sampleGlobals; norm_num) rfl (no_match_emptyPatches 0)

/-- Claim C5: at an offset `0 ≤ offset < totalSize` whose block
`b = offset / 4194304` has confidence `≥ 0`, when no slot of the patch table
passes the test of line 128, the translator reads from `_fd1` if `split & 1 = 1`
and from `_fd0` otherwise, at physical offset
`(phys * 256 + (split >> 1)) * 8832 + sector * 1094 + sectorOffset`, with the
clipped length; here `page = (offset mod 4194304) / 8192`,
`sector = (offset mod 8192) / 1024`, `sectorOffset = offset mod 1024` and
`split = (page >> 1) + ((page & 1) << 8)`.  The requested length `n` is the size
of a buffer, hence below `2^63`. -/
theorem unpatched_translation (g : Globals) (e : fwdtab) (n : Nat) (offset : Int)
    (page split : Nat)
    (hsz : IsInt32 g._tabsz) (ho : 0 ≤ offset) (hlt : offset < totalSize g)
    (hn : (n : Int) < 9223372036854775808)
    (he : g._tab[(offset / 4194304).toNat]? = some e) (hc : 0 ≤ e.confidence)
    (hno : ∀ p ∈ g.patches, patchMatches offset p = false)
    (hpage : (page : Int) = offset % 4194304 / 8192)
    (hsplit : split = (page >>> 1) + ((page &&& 1) <<< 8)) :
    lofile_read_a_little g lofile_path n offset =
      some (Chunk.pread (if split &&& 1 = 1 then g._fd1 else g._fd0)
        (min (n : Int) (1024 - offset % 1024)).toNat
        (((e.phys : Int) * 256 + ((split >>> 1 : Nat) : Int)) * 8832
          + offset % 8192 / 1024 * 1094 + offset % 1024)) := by
  obtain ⟨hb1, hb2, hb3, hb4⟩ := block_in_range g offset ho hlt
  rw [translate_unpatched g (offset / 4194304).toNat e n offset hsz (by rw [hb1]; exact hb2) he hc
    (by rw [hb1]; exact hb3) (by rw [hb1]; exact hb4) (find_take_none _ _ _ hno)]
  have hclip : clipSize n offset = (min (n : Int) (1024 - offset % 1024)).toNat := by
    have := clipSize_of_nonneg n offset ho hn
    omega
  have hsp : splitOf (pageOf offset) = (split : Int) := by
    rw [pageOf_of_nonneg offset ho, ← hpage, splitOf_natCast, hsplit]
  have hcs : csOf offset = ((split &&& 1 : Nat) : Int) := by
    unfold csOf
    rw [hsp, land_one_natCast]
  have hfp : finalPageOf offset = ((split >>> 1 : Nat) : Int) := by
    unfold finalPageOf
    rw [hsp, shiftRight_one_natCast]
  have hfd : (if csOf offset ≠ 0 then g._fd1 else g._fd0)
      = (if split &&& 1 = 1 then g._fd1 else g._fd0) := by
    rw [hcs, Nat.and_one_is_mod]
    by_cases h : split % 2 = 1
    · rw [if_pos h, if_pos (by omega)]
    · rw [if_neg h, if_neg (by omega)]
  rw [hfd, hclip, hfp, secOf_of_nonneg offset ho, secofsOf_of_nonneg offset ho]
  rfl

/-- Witness for C5: the sample globals at offset 17414 (block 0, page 2, sector 1). -/
theorem unpatched_translation_witness :
    lofile_read_a_little sampleGlobals lofile_path 5000 17414 =
      some (Chunk.pread (if 1 &&& 1 = 1 then sampleGlobals._fd1 else sampleGlobals._fd0)
        (min ((5000 : Nat) : Int) (1024 - 17414 % 1024)).toNat
        ((((2 : Nat) : Int) * 256 + ((1 >>> 1 : Nat) : Int)) * 8832
          + 17414 % 8192 / 1024 * 1094 + 17414 % 1024)) :=
  unpatched_translation sampleGlobals ⟨2, 5⟩ 5000 17414 2 1
    (by unfold IsInt32 sampleGlobals; norm_num) (by norm_num) (by decide) (by norm_num)
    rfl (by decide) (no_match_emptyPatches 17414) (by norm_num) (by decide)

/-- Claim C6, the code at the failing input: in the reachable table `fullTable`
the lowest slot that passes the test of line 128 at offset 2457600 (mapped
block 0) is slot 299, holding sector 4800, page 43 of file 4.  The claim asks
for a read of file 4 at `43 * 8832 = 379776`; the translator reads the
channel-0 file at the offset of the unpatched translation.  (For slots below
`NPATCHES` the claim holds: `patched_translation_scanned`.) -/
theorem lowest_match_beyond_scan_ignored :
    load_batches emptyPatches [(3, fullBatchA), (4, fullBatchB)] = some fullGlobals.patches ∧
    fullGlobals._tab[0]? = some ⟨2, 5⟩ ∧
    slotAt fullGlobals.patches 299 = ⟨4800, 43, 1, 4⟩ ∧
    patchMatches 2457600 (slotAt fullGlobals.patches 299) = true ∧
    (∀ i, i < 299 → patchMatches 2457600 (slotAt fullGlobals.patches i) = false) ∧
    lofile_read_a_little fullGlobals lofile_path 1024 2457600
      = some (Chunk.pread fullGlobals._fd0 1024 5184384) ∧
    lofile_read_a_little fullGlobals lofile_path 1024 2457600
      ≠ some (Chunk.pread 4 1024 (43 * 8832 + 2457600 % 8192 / 1024 * 1094 + 2457600 % 1024)) := by
  refine ⟨load_fullTable, rfl, by decide!, by decide!, by decide!, by decide!, by decide!⟩

/-- Claim C7, the code at the failing input: the table `fullTable` is reachable
from the zero table; its slot 256 holds an installed patch (sector 4112, file
4) that passes the test of line 128 at offset 2105344 of mapped block 0, and no
lower slot does; yet the read is sourced from the channel-0 file (fd 10), at
the offset of the unpatched translation, not from file 4. -/
theorem slot_256_not_honoured :
    load_batches emptyPatches [(3, fullBatchA), (4, fullBatchB)] = some fullGlobals.patches ∧
    fullGlobals._tab[0]? = some ⟨2, 5⟩ ∧
    slotAt fullGlobals.patches 256 = ⟨4112, 0, 1, 4⟩ ∧
    patchMatches 2105344 (slotAt fullGlobals.patches 256) = true ∧
    (∀ i, i < 256 → patchMatches 2105344 (slotAt fullGlobals.patches i) = false) ∧
    lofile_read_a_little fullGlobals lofile_path 1024 2105344
      = some (Chunk.pread fullGlobals._fd0 1024 6217728) ∧
    fullGlobals._fd0 ≠ (slotAt fullGlobals.patches 256).fd := by
  refine ⟨load_fullTable, rfl, by decide!, by decide!, by decide!, by decide!, by decide!⟩

/-- Claim C8: for `0 ≤ offset < totalSize` and a requested length `n` (the size
of a buffer, hence below `2^63`) the translator answers with a zero-fill, a
patch read or a channel read whose length is `min n (1024 - offset mod 1024)`;
so `offset + length` does not go past the next multiple of 1024, and the length
is at least 1 when `n` is. -/
theorem chunk_length_bound (g : Globals) (n : Nat) (offset : Int)
    (hsz : IsInt32 g._tabsz) (htab : (g._tab.length : Int) = g._tabsz)
    (ho : 0 ≤ offset) (hlt : offset < totalSize g)
    (hn : (n : Int) < 9223372036854775808) :
    ∃ ch, lofile_read_a_little g lofile_path n offset = some ch ∧
      (ch = Chunk.zero ch.len ∨ ∃ fd off, ch = Chunk.pread fd ch.len off) ∧
      (ch.len : Int) = min (n : Int) (1024 - offset % 1024) ∧
      offset + ch.len ≤ (offset / 1024 + 1) * 1024 ∧
      (1 ≤ n → 1 ≤ ch.len) := by
  have hclip := clipSize_of_nonneg n offset ho hn
  have hfacts : (clipSize n offset : Int) = min (n : Int) (1024 - offset % 1024) ∧
      offset + clipSize n offset ≤ (offset / 1024 + 1) * 1024 ∧
      (1 ≤ n → 1 ≤ clipSize n offset) := by
    clear hsz htab hlt
    omega
  rcases translate_in_range g n offset hsz htab ho hlt with h | ⟨fd, off, h⟩
  · exact ⟨_, h, Or.inl rfl, hfacts⟩
  · exact ⟨_, h, Or.inr ⟨fd, off, rfl⟩, hfacts⟩

/-- Witness for C8: 5000 bytes asked at offset 17414 of the sample file. -/
theorem chunk_length_bound_witness :
    ∃ ch, lofile_read_a_little sampleGlobals lofile_path 5000 17414 = some ch ∧
      (ch = Chunk.zero ch.len ∨ ∃ fd off, ch = Chunk.pread fd ch.len off) ∧
      (ch.len : Int) = min ((5000 : Nat) : Int) (1024 - 17414 % 1024) ∧
      (17414 : Int) + ch.len ≤ (17414 / 1024 + 1) * 1024 ∧
      (1 ≤ 5000 → 1 ≤ ch.len) :=
  chunk_length_bound sampleGlobals 5000 17414 (by unfold IsInt32 sampleGlobals; norm_num) rfl
    (by norm_num) (by decide) (by norm_num)

/-- Claim C9, counterexample: `fullTable` (reached from the zero table) has no free
slot and does not hold sector 100000, the first in-use record of `lateBatch`;
its slot 0 holds sector 16 with confidence 1, and the second in-use record of
`lateBatch` is for sector 16 with confidence 9.  Loading `lateBatch` leaves the
table as it is: the second record is not installed in slot 0. -/
theorem table_full_drops_later_records :
    load_batches emptyPatches [(3, fullBatchA), (4, fullBatchB)] = some fullTable ∧
    (∀ j, j < NPATCHES * 2 →
      (slotAt fullTable j).sector ≠ 0 ∧ (slotAt fullTable j).sector ≠ 100000) ∧
    inUse lateBatch = [⟨100000, 7, 9, 0⟩, ⟨16, 7, 9, 0⟩] ∧
    slotAt fullTable 0 = ⟨16, 0, 1, 3⟩ ∧
    load_batch fullTable 5 lateBatch = some fullTable ∧
    slotAt fullTable 0 ≠ installed 5 ⟨16, 7, 9, 0⟩ := by
  have hfull : ∀ j, j < NPATCHES * 2 →
      (slotAt fullTable j).sector ≠ 0 ∧ (slotAt fullTable j).sector ≠ 100000 := by
    intro j hj
    obtain ⟨i, hi, hs⟩ := fullTable_slot j hj
    rw [hs]
    omega
  exact ⟨load_fullTable, hfull, by decide, by decide!, by decide!, by decide!⟩

/-- Claim C9, amended: when the loop reaches an in-use record whose sector is not
in the table while no slot is free, the install of that record is dropped, the
table is left as it is, and the loop over the batch ends there: whatever the
remaining records `rest` are, none of them is processed. -/
theorem table_full_ends_batch (pfilfd : Int) (t : List patch) (r : patch) (rest : List patch)
    (hr : r.sector ≠ 0)
    (hfull : ∀ j, j < NPATCHES * 2 →
      (slotAt t j).sector ≠ 0 ∧ (slotAt t j).sector ≠ r.sector) :
    install_loop pfilfd t (r :: rest) = t := by
  rw [install_loop, if_neg hr]
  simp only [findSlot_full t r.sector hfull]
  rfl

/-- Witness for C9 (amended): the first record of `lateBatch` on `fullTable`. -/
theorem table_full_ends_batch_witness :
    install_loop 5 fullTable (⟨100000, 7, 9, 0⟩ :: ⟨16, 7, 9, 0⟩ :: List.replicate 254 zeroPatch)
      = fullTable :=
  table_full_ends_batch 5 fullTable ⟨100000, 7, 9, 0⟩ _ (by decide)
    (fun j hj => by
      obtain ⟨i, hi, hs⟩ := fullTable_slot j hj
      rw [hs]
      exact ⟨by omega, by show 16 * ((i : Int) + 1) ≠ 100000; omega⟩)

/-- Claim C10: starting from the empty (all-zero) table, after any sequence of
patch batches the table still has 512 slots, its occupied slots
(`sector != 0`) form an initial segment, no two occupied slots hold the same
sector, every occupied slot has confidence `> 0` and every free slot has
confidence `0`. -/
theorem patch_table_invariant (batches : List (Int × List patch)) (t : List patch)
    (h : load_batches emptyPatches batches = some t) :
    t.length = NPATCHES * 2 ∧
    (∀ i j, i < j → j < NPATCHES * 2 → (slotAt t j).sector ≠ 0 → (slotAt t i).sector ≠ 0) ∧
    (∀ i j, i < NPATCHES * 2 → j < NPATCHES * 2 → (slotAt t i).sector ≠ 0 →
      (slotAt t i).sector = (slotAt t j).sector → i = j) ∧
    (∀ j, j < NPATCHES * 2 → (slotAt t j).sector ≠ 0 → 0 < (slotAt t j).confidence) ∧
    (∀ j, j < NPATCHES * 2 → (slotAt t j).sector = 0 → (slotAt t j).confidence = 0) := by
  rw [← tableOf_nil] at h
  obtain ⟨occ, hocc, rfl⟩ := load_batches_tableOf batches [] Occ_nil t h
  refine ⟨tableOf_length occ hocc.len, ?_, ?_, ?_, ?_⟩
  · intro i j hij _ hj
    rw [slot_occupied_iff occ hocc] at hj ⊢
    omega
  · intro i j _ _ hi hs
    have hj : (slotAt (tableOf occ) j).sector ≠ 0 := by rw [← hs]; exact hi
    rw [slot_occupied_iff occ hocc] at hi hj
    rw [slotAt_occupied occ i hi, slotAt_occupied occ j hj] at hs
    exact occ_sector_inj occ hocc i j hi hj hs
  · intro j _ hj
    rw [slot_occupied_iff occ hocc] at hj
    rw [slotAt_occupied occ j hj]
    exact hocc.conf _ (List.getElem_mem _)
  · intro j _ hj
    by_cases hlt : j < occ.length
    · exact absurd hj ((slot_occupied_iff occ hocc j).mpr hlt)
    · rw [slotAt_free occ j (by omega)]
      rfl

/-- Witness for C10: the two sample batches loaded one after the other. -/
theorem patch_table_invariant_witness :
    load_batches emptyPatches [(3, sampleBatch1), (4, sampleBatch2)]
      = some (⟨17, 4, 9, 4⟩ :: List.replicate 511 zeroPatch) ∧
    (⟨17, 4, 9, 4⟩ :: List.replicate 511 zeroPatch : List patch).length = NPATCHES * 2 ∧
    (∀ j, j < NPATCHES * 2 →
      (slotAt (⟨17, 4, 9, 4⟩ :: List.replicate 511 zeroPatch) j).sector ≠ 0 →
      0 < (slotAt (⟨17, 4, 9, 4⟩ :: List.replicate 511 zeroPatch) j).confidence) :=
  have h : load_batches emptyPatches [(3, sampleBatch1), (4, sampleBatch2)]
      = some (⟨17, 4, 9, 4⟩ :: List.replicate 511 zeroPatch) := by decide!
  ⟨h, (patch_table_invariant _ _ h).1, (patch_table_invariant _ _ h).2.2.2.1⟩

/-- Claim C11, counterexample: on a device that serves one byte per read, asked
for 3 bytes at offset 0 of the sample file, the first physical read returns 1
byte of the 3 asked; `lofile_read` does not stop there: it issues two further
physical reads and returns 3. -/
theorem short_read_does_not_end_request :
    oneByteDev.pread64 10 3 4521984 = PreadResult.data [7] ∧
    outcome (lofile_read sampleGlobals oneByteDev lofile_path 3 0 10)
      = some (3, [⟨10, 3, 4521984⟩, ⟨10, 2, 4521985⟩, ⟨10, 1, 4521986⟩]) :=
  ⟨rfl, by decide!⟩

/-- Claim C11, amended: a chunk that produces zero bytes ends the request, for
any values `st` of the loop variables.  (1) At or past the end of the file
(`offset ≥ totalSize`) the loop ends with `st` unchanged: no physical read is
issued.  (2) If the physical read of the chunk returns zero bytes, the loop
ends at that chunk: the read is the last of the trace, the buffer and the
count `retsz` (the value `lofile_read` returns) are as they were.  (3) A
physical read that returns `k` bytes with `1 ≤ k`, fewer than the chunk length
asked of it or not, does not end the request: for `offset ≥ 0` and
`retsz + size < 2^63` the four loop variables advance by `k` and the loop goes
on with the next chunk. -/
theorem zero_read_ends_request (g : Globals) (dev : Dev) (fuel : Nat) (st : ReadState) :
    (totalSize g ≤ st.offset →
      lofile_read_loop g dev lofile_path (fuel + 1) st = Except.ok st) ∧
    (∀ (fd : Int) (n : Nat) (off : Int) (bytes : List Nat), st.size ≠ 0 →
      lofile_read_a_little g lofile_path st.size st.offset = some (Chunk.pread fd n off) →
      dev.pread64 fd n off = PreadResult.data bytes → (bytes.take n).length = 0 →
      lofile_read_loop g dev lofile_path (fuel + 1) st =
        Except.ok { st with trace := st.trace ++ [⟨fd, n, off⟩] }) ∧
    (∀ (fd : Int) (n : Nat) (off : Int) (bytes : List Nat), st.size ≠ 0 →
      0 ≤ st.offset → st.retsz + st.size < 9223372036854775808 →
      lofile_read_a_little g lofile_path st.size st.offset = some (Chunk.pread fd n off) →
      dev.pread64 fd n off = PreadResult.data bytes → 1 ≤ (bytes.take n).length →
      lofile_read_loop g dev lofile_path (fuel + 1) st =
        lofile_read_loop g dev lofile_path fuel
          { size := st.size - (bytes.take n).length
            buf := st.buf + ((bytes.take n).length : Nat)
            retsz := st.retsz + (bytes.take n).length
            offset := st.offset + ((bytes.take n).length : Nat)
            mem := store st.mem st.buf (bytes.take n)
            trace := st.trace ++ [⟨fd, n, off⟩] }) := by
  refine ⟨?_, ?_, ?_⟩
  · intro hge
    by_cases h0 : st.size = 0
    · exact loop_done g dev lofile_path (fuel + 1) st h0
    · exact loop_step_eof g dev fuel st h0 hge
  · intro fd n off bytes h0 htr hdev hlen
    rw [loop_step_zero_read g dev lofile_path fuel st fd n off bytes h0 htr hdev hlen,
      List.eq_nil_of_length_eq_zero hlen, store_nil]
  · intro fd n off bytes h0 ho hsize htr hdev h1
    obtain ⟨hn, _⟩ := pread_shape g st.size st.offset fd n off htr
    obtain ⟨_, hc2, _, hc4⟩ := clipSize_bounds st.size st.offset ho (Nat.pos_of_ne_zero h0)
      (by omega)
    rw [← hn] at hc2 hc4
    have hk : (bytes.take n).length ≤ n := List.length_take_le _ _
    exact loop_step_advance g dev lofile_path fuel st _ _ _ _ htr
      (runChunk_data dev fd n off st.buf st.mem st.trace bytes hc4 hdev) h1 (by omega) (by omega)

/-- Witness for C11 (amended), on the sample file: a 3-byte request at the end of
the file ends at once; on a device that returns no byte, the first iteration
of a 3-byte request at offset 0 ends the loop after one physical read; on a
device that serves one byte per read, it advances by one byte and goes on. -/
theorem zero_read_ends_request_witness :
    lofile_read_loop sampleGlobals fullDev lofile_path (2 + 1)
        { size := 3, buf := 0, retsz := 0, offset := 8388608, mem := emptyMem, trace := [] } =
      Except.ok { size := 3, buf := 0, retsz := 0, offset := 8388608, mem := emptyMem,
                  trace := [] } ∧
    lofile_read_loop sampleGlobals ⟨fun _ _ _ => PreadResult.data []⟩ lofile_path (2 + 1)
        { size := 3, buf := 0, retsz := 0, offset := 0, mem := emptyMem, trace := [] } =
      Except.ok { size := 3, buf := 0, retsz := 0, offset := 0, mem := emptyMem,
                  trace := [] ++ [⟨10, 3, 4521984⟩] } ∧
    lofile_read_loop sampleGlobals oneByteDev lofile_path (2 + 1)
        { size := 3, buf := 0, retsz := 0, offset := 0, mem := emptyMem, trace := [] } =
      lofile_read_loop sampleGlobals oneByteDev lofile_path 2
        { size := 3 - ([7].take 3).length, buf := 0 + ((([7].take 3).length : Nat) : Int)
          retsz := 0 + ([7].take 3).length, offset := 0 + ((([7].take 3).length : Nat) : Int)
          mem := store emptyMem 0 ([7].take 3), trace := [] ++ [⟨10, 3, 4521984⟩] } :=
  ⟨(zero_read_ends_request sampleGlobals fullDev 2
      { size := 3, buf := 0, retsz := 0, offset := 8388608, mem := emptyMem, trace := [] }).1
      (by decide),
   (zero_read_ends_request sampleGlobals ⟨fun _ _ _ => PreadResult.data []⟩ 2
      { size := 3, buf := 0, retsz := 0, offset := 0, mem := emptyMem, trace := [] }).2.1
      10 3 4521984 [] (by decide) (by decide) rfl rfl,
   (zero_read_ends_request sampleGlobals oneByteDev 2
      { size := 3, buf := 0, retsz := 0, offset := 0, mem := emptyMem, trace := [] }).2.2
      10 3 4521984 [7] (by decide) (by decide) (by decide) (by decide) rfl (by decide)⟩

/-- Claim C12: `lofile_open` returns `-ENOENT` for every path other than
`"/lofile"`, whatever the flags; it returns `-EACCES` for `"/lofile"` when
`flags & 3` is not `O_RDONLY`; and it returns 0 exactly when the path is
`"/lofile"` and `flags & 3` is `O_RDONLY`. -/
theorem open_result (path : String) (flags : Int) :
    (path ≠ "/lofile" → lofile_open path flags = -ENOENT) ∧
    (path = "/lofile" → Int.land flags 3 ≠ O_RDONLY → lofile_open path flags = -EACCES) ∧
    (lofile_open path flags = 0 ↔ path = "/lofile" ∧ Int.land flags 3 = O_RDONLY) := by
  have hpath : lofile_path = "/lofile" := rfl
  have h1 : -ENOENT ≠ 0 := by decide
  have h2 : -EACCES ≠ 0 := by decide
  unfold lofile_open
  rw [hpath]
  refine ⟨fun h => if_pos h, fun h hf => ?_, ?_⟩
  · rw [if_neg (not_not.mpr h), if_pos hf]
  · by_cases hp : path = "/lofile"
    · rw [if_neg (not_not.mpr hp)]
      by_cases hf : Int.land flags 3 = O_RDONLY
      · rw [if_neg (not_not.mpr hf)]
        exact ⟨fun _ => ⟨hp, hf⟩, fun _ => rfl⟩
      · rw [if_pos hf]
        exact ⟨fun h => absurd h h2, fun h => absurd h.2 hf⟩
    · rw [if_pos hp]
      exact ⟨fun h => absurd h h1, fun h => absurd h.1 hp⟩

/-- Witness for C12: read-only and write-only opens of `"/lofile"`, and another path. -/
theorem open_result_witness :
    lofile_open "/lofile" 0 = 0 ∧ lofile_open "/lofile" 1 = -EACCES ∧
    lofile_open "/other" 0 = -ENOENT :=
  ⟨(open_result "/lofile" 0).2.2.mpr ⟨rfl, by decide⟩,
    (open_result "/lofile" 1).2.1 rfl (by decide),
    (open_result "/other" 0).1 (by decide)⟩

/-- Claim C13, the code at the failing input: `lofile_read` on the path `"/other"`
with size 0 returns 0, not `-ENOENT`; with size 1 it does not return at all,
whatever the number of iterations allowed (each call of
`lofile_read_a_little` returns `-ENOENT`, which the loop subtracts from
`size`). -/
theorem read_other_path_not_enoent :
    (∀ fuel, outcome (lofile_read sampleGlobals fullDev "/other" 0 0 fuel) = some (0, [])) ∧
    (0 : Int) ≠ -ENOENT ∧
    (∀ fuel, lofile_read sampleGlobals fullDev "/other" 1 0 fuel
      = Except.error Fault.outOfFuel) := by
  refine ⟨?_, by decide, ?_⟩
  · intro fuel
    unfold lofile_read
    rw [loop_done _ _ _ _ _ rfl]
    rfl
  · intro fuel
    unfold lofile_read
    rw [loop_other_path_odd sampleGlobals fullDev "/other" (by decide) fuel
      { size := 1, buf := 0, retsz := 0, offset := 0, mem := emptyMem, trace := [] } rfl]

/-- Claim C14: for a forward map with `blockCount = _tabsz` entries and an offset
`0 ≤ offset < blockCount * 4194304`, the index `offset / 4194304` is below
`blockCount`, so the lookup `_tab[block]` is in bounds, and the translator
answers with a zero-fill or with one read descriptor, of length at most 1024
(the requested length `n` is the size of a buffer, hence below `2^63`). -/
theorem translator_never_fails (g : Globals) (n : Nat) (offset : Int)
    (hsz : IsInt32 g._tabsz) (htab : (g._tab.length : Int) = g._tabsz)
    (ho : 0 ≤ offset) (hlt : offset < g._tabsz * 4194304)
    (hn : (n : Int) < 9223372036854775808) :
    offset / 4194304 < g._tabsz ∧ blockOf offset = offset / 4194304 ∧
    (∃ e, g._tab[(blockOf offset).toNat]? = some e) ∧
    ∃ ch, lofile_read_a_little g lofile_path n offset = some ch ∧
      (ch = Chunk.zero ch.len ∨ ∃ fd off, ch = Chunk.pread fd ch.len off) ∧
      ch.len ≤ 1024 := by
  have hlt2 : offset < totalSize g := by rw [totalSize_eq]; exact hlt
  have hblock : blockOf offset = offset / 4194304 :=
    blockOf_of_nonneg offset ho (by unfold IsInt32 at hsz; omega)
  have hidx : offset / 4194304 < g._tabsz := by omega
  have hclip := clipSize_of_nonneg n offset ho hn
  have hlen : clipSize n offset ≤ 1024 := by
    clear hsz htab hlt hlt2 hblock hidx
    omega
  refine ⟨hidx, hblock, ?_, ?_⟩
  · rw [hblock]
    have hin : (offset / 4194304).toNat < g._tab.length := by omega
    exact ⟨_, List.getElem?_eq_getElem hin⟩
  · rcases translate_in_range g n offset hsz htab ho hlt2 with h | ⟨fd, off, h⟩
    · exact ⟨_, h, Or.inl rfl, hlen⟩
    · exact ⟨_, h, Or.inr ⟨fd, off, rfl⟩, hlen⟩

/-- Witness for C14: 5000 bytes asked at offset 17414 of the sample file. -/
theorem translator_never_fails_witness :
    (17414 : Int) / 4194304 < sampleGlobals._tabsz ∧ blockOf 17414 = 17414 / 4194304 ∧
    (∃ e, sampleGlobals._tab[(blockOf 17414).toNat]? = some e) ∧
    ∃ ch, lofile_read_a_little sampleGlobals lofile_path 5000 17414 = some ch ∧
      (ch = Chunk.zero ch.len ∨ ∃ fd off, ch = Chunk.pread fd ch.len off) ∧
      ch.len ≤ 1024 :=
  translator_never_fails sampleGlobals 5000 17414 (by unfold IsInt32 sampleGlobals; norm_num)
    rfl (by norm_num) (by unfold sampleGlobals; norm_num) (by norm_num)

/-- Claim C15, the code at the failing input: the sample file, a 1-byte request
at offset 0, on a device whose read at physical offset 4521984 (the read for
offset 0) fails with `-1`.  The loop goes on at offset `-1` with `size = 2`,
where the translator issues a read of 2 bytes at physical offset 4521983, the
last byte of page 511: the bytes `[4521983, 4521985)` lie in two pages, and
`4521983 mod 8832 = 8831` is not `s * 1094 + o` with `0 ≤ s ≤ 7`, `0 ≤ o` and
`o + 2 ≤ 1024`. -/
theorem read_crosses_page_boundary :
    failFirstDev.pread64 10 1 4521984 = PreadResult.error ∧
    lofile_read_a_little sampleGlobals lofile_path 2 (-1) = some (Chunk.pread 10 2 4521983) ∧
    outcome (lofile_read sampleGlobals failFirstDev lofile_path 1 0 10)
      = some (1, [⟨10, 1, 4521984⟩, ⟨10, 2, 4521983⟩]) ∧
    (4521983 : Int) / 8832 ≠ (4521983 + 2 - 1) / 8832 ∧
    ¬ ∃ s o : Int, (4521983 : Int) % 8832 = s * 1094 + o ∧ 0 ≤ s ∧ s ≤ 7 ∧ 0 ≤ o ∧
      o + 2 ≤ 1024 := by
  refine ⟨rfl, by decide!, by decide!, by decide, ?_⟩
  rintro ⟨s, o, h, hs0, hs1, ho0, ho1⟩
  omega

/-- Claim C16, counterexample: at offset 8192 the translator's sector index is 0
and its page index is 1, while `(8192 mod 4194304) / 1024 = 8`; the read issued
for offset 8192 of the sample file is at `(2 * 256 + 128) * 8832 + 0 * 1094`,
not at `... + 8 * 1094`.  No single modulus `G` gives both indices:
`(8192 mod G) / 1024 = 0` and `(8192 mod G) / 8192 = 1` exclude each other. -/
theorem sector_index_not_block_relative :
    secOf 8192 = 0 ∧ pageOf 8192 = 1 ∧ secOf 8192 ≠ 8192 % 4194304 / 1024 ∧
    lofile_read_a_little sampleGlobals lofile_path 1024 8192
      = some (Chunk.pread 10 1024 ((2 * 256 + 128) * 8832 + 0 * 1094 + 0)) ∧
    ¬ ∃ G : Int, secOf 8192 = 8192 % G / 1024 ∧ pageOf 8192 = 8192 % G / 8192 := by
  refine ⟨by decide, by decide, by decide, by decide, ?_⟩
  rintro ⟨G, h1, h2⟩
  have e1 : secOf 8192 = 0 := by decide
  have e2 : pageOf 8192 = 1 := by decide
  rw [e1] at h1
  rw [e2] at h2
  generalize (8192 : Int) % G = r at h1 h2
  omega

/-- Claim C16, amended: for every offset `≥ 0` the translator's sector index is
`(offset mod 8192) / 1024` (the modulus is the group of 8 sectors,
`SECBLOCK * SECCNT`, not the block span), its sectorOffset is
`offset mod 1024`, and its page index is `(offset mod 4194304) / 8192` (the
modulus is the block span). -/
theorem index_formulas (offset : Int) (ho : 0 ≤ offset) :
    secOf offset = offset % (SECBLOCK * SECCNT) / 1024 ∧
    secofsOf offset = offset % 1024 ∧
    pageOf offset = offset % (SECBLOCK * SECCNT * BLOCKSZ) / 8192 ∧
    SECBLOCK * SECCNT = 8192 ∧ SECBLOCK * SECCNT * BLOCKSZ = 4194304 :=
  ⟨secOf_of_nonneg offset ho, secofsOf_of_nonneg offset ho, pageOf_of_nonneg offset ho,
    by decide, by decide⟩

/-- Witness for C16 (amended): offset 17414. -/
theorem index_formulas_witness :
    secOf 17414 = 17414 % (SECBLOCK * SECCNT) / 1024 ∧
    secofsOf 17414 = 17414 % 1024 ∧
    pageOf 17414 = 17414 % (SECBLOCK * SECCNT * BLOCKSZ) / 8192 ∧
    SECBLOCK * SECCNT = 8192 ∧ SECBLOCK * SECCNT * BLOCKSZ = 4194304 :=
  index_formulas 17414 (by norm_num)

/-- Claim C17, the code at the failing input: the sample file, a 1-byte request
at offset 1024, on a device whose read at physical offset 4523078 fails with
`-1` and whose other reads return no byte.  The loop ends with `size = 2`,
output cursor `-1` (one byte before the caller's buffer),
`retsz = 2^64 - 1` and offset 1023, and `lofile_read` returns `-1`, which is
not between 0 and the requested size 1. -/
theorem failed_read_escapes_bounds :
    failOnceDev.pread64 10 1 4523078 = PreadResult.error ∧
    finalVars (lofile_read_loop sampleGlobals failOnceDev lofile_path 10
        { size := 1, buf := 0, retsz := 0, offset := 1024, mem := emptyMem, trace := [] })
      = some (2, -1, 18446744073709551615, 1023) ∧
    outcome (lofile_read sampleGlobals failOnceDev lofile_path 1 1024 10)
      = some (-1, [⟨10, 1, 4523078⟩, ⟨10, 1, 4523007⟩]) :=
  ⟨rfl, by decide!, by decide!⟩

/-- Claim C18: on every patch table reachable from the empty table by loading
batches, and for every non-zero sector address `s`, the slot the loader picks
(lines 220-222: the first slot that is free or holds `s`) is the slot picked by
the two-priority scan of the specification (a slot already holding `s`, else
the first free slot); and it reports "table full" (`j == NPATCHES * 2`) exactly
when no slot holds `s` and no slot is free. -/
theorem slot_selection_refines_spec (batches : List (Int × List patch)) (t : List patch)
    (s : Int) (h : load_batches emptyPatches batches = some t) (hs : s ≠ 0) :
    findSlot t s = findSlotSpec t s ∧
    (findSlot t s = NPATCHES * 2 ↔
      ∀ j, j < NPATCHES * 2 → (slotAt t j).sector ≠ 0 ∧ (slotAt t j).sector ≠ s) := by
  rw [← tableOf_nil] at h
  obtain ⟨occ, hocc, rfl⟩ := load_batches_tableOf batches [] Occ_nil t h
  refine ⟨by rw [findSlot_tableOf occ s hocc, findSlotSpec_tableOf occ s hocc hs], ?_, ?_⟩
  · intro hfull j hj
    rw [findSlot_tableOf occ s hocc] at hfull
    have hle := @List.findIdx_le_length _ (holds s) occ
    have hocclen := hocc.len
    have hj2 : j < occ.length := by omega
    rw [slotAt_occupied occ j hj2]
    refine ⟨hocc.inuse _ (List.getElem_mem _), ?_⟩
    have hnone := List.findIdx_eq_length.mp (show occ.findIdx (holds s) = occ.length by omega)
    exact (holds_false_iff s _).mp (hnone _ (List.getElem_mem _))
  · exact findSlot_full (tableOf occ) s

/-- Witness for C18: the table left by the two sample batches, and sector 33. -/
theorem slot_selection_refines_spec_witness :
    findSlot (⟨17, 4, 9, 4⟩ :: List.replicate 511 zeroPatch) 33
      = findSlotSpec (⟨17, 4, 9, 4⟩ :: List.replicate 511 zeroPatch) 33 :=
  (slot_selection_refines_spec [(3, sampleBatch1), (4, sampleBatch2)] _ 33 (by decide!)
    (by decide)).1

/-- Claim C19: the map `page ↦ (channel, finalPage)` of lines 139-142, with
`split = (page >> 1) + ((page & 1) << 8)`, `channel = split & 1` and
`finalPage = split >> 1`, is a bijection from `{0..511}` onto
`{0,1} × {0..255}`.  Consequently, in a mapped block with forward-map entry `e`
and no matching scanned slot, the reads issued for two offsets of the block
with the same channel and the same physical offset are for the same offset,
and the physical offset lies in pages `phys * 256 .. phys * 256 + 255`. -/
theorem deinterleave_bijective :
    (∀ p : Nat, p < 512 →
      0 ≤ Int.land (splitOf p) 1 ∧ Int.land (splitOf p) 1 ≤ 1 ∧
      0 ≤ (splitOf p) >>> 1 ∧ (splitOf p) >>> 1 ≤ 255) ∧
    (∀ p q : Nat, p < 512 → q < 512 → Int.land (splitOf p) 1 = Int.land (splitOf q) 1 →
      (splitOf p) >>> 1 = (splitOf q) >>> 1 → p = q) ∧
    (∀ c f : Int, 0 ≤ c → c ≤ 1 → 0 ≤ f → f ≤ 255 →
      ∃ p : Nat, p < 512 ∧ Int.land (splitOf p) 1 = c ∧ (splitOf p) >>> 1 = f) ∧
    (∀ (g : Globals) (b : Nat) (e : fwdtab) (n1 n2 : Nat) (o1 o2 : Int) (fd1 fd2 : Int)
      (L1 L2 : Nat) (P1 P2 : Int),
      IsInt32 g._tabsz → (b : Int) < g._tabsz → g._tab[b]? = some e → 0 ≤ e.confidence →
      (b : Int) * 4194304 ≤ o1 → o1 < ((b : Int) + 1) * 4194304 →
      (b : Int) * 4194304 ≤ o2 → o2 < ((b : Int) + 1) * 4194304 →
      (g.patches.take NPATCHES).find? (patchMatches o1) = none →
      (g.patches.take NPATCHES).find? (patchMatches o2) = none →
      lofile_read_a_little g lofile_path n1 o1 = some (Chunk.pread fd1 L1 P1) →
      lofile_read_a_little g lofile_path n2 o2 = some (Chunk.pread fd2 L2 P2) →
      (csOf o1 = csOf o2 → P1 = P2 → o1 = o2) ∧
      (e.phys : Int) * 256 ≤ P1 / 8832 ∧ P1 / 8832 ≤ (e.phys : Int) * 256 + 255) := by
  refine ⟨?_, ?_, ?_, ?_⟩
  · intro p hp
    have := deinterleave_range p hp
    rw [channel_arith, finalPage_arith]
    omega
  · intro p q hp hq h1 h2
    rw [channel_arith, channel_arith] at h1
    rw [finalPage_arith, finalPage_arith] at h2
    exact deinterleave_inj p q hp hq (by exact_mod_cast h1) (by exact_mod_cast h2)
  · intro c f hc0 hc1 hf0 hf1
    obtain ⟨c', rfl⟩ : ∃ c' : Nat, c = (c' : Int) := ⟨c.toNat, by omega⟩
    obtain ⟨f', rfl⟩ : ∃ f' : Nat, f = (f' : Int) := ⟨f.toNat, by omega⟩
    by_cases hlow : 2 * f' + c' < 256
    · refine ⟨2 * (2 * f' + c'), by omega, ?_, ?_⟩
      · rw [channel_arith]; omega
      · rw [finalPage_arith]; omega
    · refine ⟨2 * (2 * f' + c' - 256) + 1, by omega, ?_, ?_⟩
      · rw [channel_arith]; omega
      · rw [finalPage_arith]; omega
  · intro g b e n1 n2 o1 o2 fd1 fd2 L1 L2 P1 P2 hsz hb he hc hlo1 hhi1 hlo2 hhi2 hno1 hno2 h1 h2
    exact unpatched_injective g b e n1 n2 o1 o2 fd1 fd2 L1 L2 P1 P2 hsz hb he hc hlo1 hhi1 hlo2
      hhi2 hno1 hno2 h1 h2

/-- Witness for C19: channel 1, final page 7 is the image of a page below 512. -/
theorem deinterleave_bijective_witness :
    ∃ p : Nat, p < 512 ∧ Int.land (splitOf p) 1 = 1 ∧ (splitOf p) >>> 1 = 7 :=
  deinterleave_bijective.2.2.1 1 7 (by norm_num) (by norm_num) (by norm_num) (by norm_num)

/-- Claim C20: `512 * 16 = 1024 * 8`, and a patch with `sector = s > 0` passes the
test of line 128 at an offset `≥ 0` exactly when `block * 512 + page = s / 16`,
with `block = offset / 4194304` and `page = (offset mod 4194304) / 8192`.  So
when it matches `offset`, it matches another offset exactly when that one has
the same block and page: the offsets matched share block and page, and all 8
sectors of that page (every byte of its 8192) are matched. -/
theorem patch_covers_one_page (p : patch) (offset : Int) (hs : 0 < p.sector)
    (ho : 0 ≤ offset) :
    PATCHSECSZ * 16 = SECBLOCK * SECCNT ∧
    (patchMatches offset p = true ↔
      offset / 4194304 * 512 + offset % 4194304 / 8192 = p.sector / 16) ∧
    (patchMatches offset p = true → ∀ other : Int, 0 ≤ other →
      (patchMatches other p = true ↔
        other / 4194304 = offset / 4194304 ∧
        other % 4194304 / 8192 = offset % 4194304 / 8192)) ∧
    (patchMatches offset p = true → ∀ sec secofs : Int, 0 ≤ sec → sec ≤ 7 → 0 ≤ secofs →
      secofs < 1024 →
      patchMatches (offset / 8192 * 8192 + sec * 1024 + secofs) p = true) := by
  have hmatch : ∀ o : Int, 0 ≤ o →
      (patchMatches o p = true ↔ p.sector / 16 = o / 8192) := by
    intro o h0
    rw [patchMatches_of_nonneg o h0, tdiv_of_nonneg p.sector 16 (le_of_lt hs) (by norm_num)]
    simp only [Bool.and_eq_true, decide_eq_true_eq]
    exact ⟨fun h => h.2, fun h => ⟨ne_of_gt hs, h⟩⟩
  refine ⟨by decide, ?_, ?_, ?_⟩
  · rw [hmatch offset ho]
    omega
  · intro hm other h0
    rw [hmatch offset ho] at hm
    rw [hmatch other h0, hm]
    omega
  · intro hm sec secofs h1 h2 h3 h4
    rw [hmatch offset ho] at hm
    rw [hmatch _ (by omega), hm]
    omega

/-- Witness for C20: sector 17 and offset 8192 + 5000 (block 0, page 1). -/
theorem patch_covers_one_page_witness :
    patchMatches 13192 ⟨17, 4, 9, 4⟩ = true ∧
    patchMatches (13192 / 8192 * 8192 + 7 * 1024 + 1023) ⟨17, 4, 9, 4⟩ = true :=
  ⟨(patch_covers_one_page ⟨17, 4, 9, 4⟩ 13192 (by decide) (by norm_num)).2.1.mpr (by decide),
    (patch_covers_one_page ⟨17, 4, 9, 4⟩ 13192 (by decide) (by norm_num)).2.2.2 (by decide)
      7 1023 (by norm_num) (by norm_num) (by norm_num) (by norm_num)⟩

end Lofile
